import Mathlib

/-!
# Triangulate_modifier (CGAL/triangulate_faces.h)

A shallow embedding of `Triangulate_modifier::operator()` from
`Polygon_mesh_processing/include/CGAL/triangulate_faces.h`, together with the
collaborators it calls (half-edge mesh primitives, the constrained
triangulation engine, the normal estimator), and theorems about it.

Descriptors are indices into an arena.  Loops that the C++ code runs until a
half-edge cycle closes take a fuel argument; running out of fuel stands for a
loop that never returns.
-/

namespace PMP

/-! ## Kernel -/

/-- Point or vector with exact integer coordinates. -/
structure Point_3 where
  x : Int
  y : Int
  z : Int
deriving DecidableEq, Repr

abbrev Vector_3 := Point_3

/-- Difference `p - q` of two points. -/
def Point_3.sub (p q : Point_3) : Vector_3 := ⟨p.x - q.x, p.y - q.y, p.z - q.z⟩

/-- Sum of two vectors. -/
def Point_3.add (p q : Vector_3) : Vector_3 := ⟨p.x + q.x, p.y + q.y, p.z + q.z⟩

/-- The null vector. -/
def Point_3.zero : Vector_3 := ⟨0, 0, 0⟩

/-- Cross product of two vectors. -/
def cross_product (u v : Vector_3) : Vector_3 :=
  ⟨u.y * v.z - u.z * v.y, u.z * v.x - u.x * v.z, u.x * v.y - u.y * v.x⟩

/-! ## Mesh -/

abbrev vertex_descriptor := Nat
abbrev halfedge_descriptor := Nat
abbrev face_descriptor := Nat
abbrev edge_descriptor := Nat

/-- Modelled from the spec: the half-edge mesh `PM` (a template parameter of
the source, its data structure is not part of the file).  Section 3 of the spec
gives the entities: a half-edge has a target vertex, an opposite, next and
previous half-edges and an incident face; a face has one boundary half-edge; a
vertex has a position.  Records live in an arena addressed by stable integer
indices (section 9).  `face h = none` says that `h` bounds a hole. -/
structure PM where
  faces : List face_descriptor
  halfedge : face_descriptor → halfedge_descriptor
  next : halfedge_descriptor → halfedge_descriptor
  prev : halfedge_descriptor → halfedge_descriptor
  opposite : halfedge_descriptor → halfedge_descriptor
  target : halfedge_descriptor → vertex_descriptor
  face : halfedge_descriptor → Option face_descriptor
  point : vertex_descriptor → Point_3
  num_halfedges : Nat
  num_faces : Nat

/-- The loop `do { body(h); h = next(h) } while (h != start)`: the list of
half-edges the body sees, `none` if the loop does not come back to `start`
within the fuel. -/
def cycle_from (g : PM) (start : halfedge_descriptor) :
    Nat → halfedge_descriptor → Option (List halfedge_descriptor)
  | 0, _ => none
  | fuel + 1, h =>
    if g.next h = start then some [h]
    else (cycle_from g start fuel (g.next h)).map (fun hs => h :: hs)

/-- Modelled from the spec: `halfedges_around_face(h, g)`, the boundary cycle
that starts at `h` (following `next` returns to `h`, section 3). -/
def halfedges_around_face (h : halfedge_descriptor) (g : PM) :
    Option (List halfedge_descriptor) :=
  cycle_from g h g.num_halfedges h

/-- Modelled from the spec: `set_target(h, v, g)` writes the target of `h`. -/
def set_target (h : halfedge_descriptor) (v : vertex_descriptor) (g : PM) : PM :=
  { g with target := Function.update g.target h v }

/-- Modelled from the spec: `set_next(h1, h2, g)` links `h1` to `h2`, keeping
`prev` the inverse link. -/
def set_next (h1 h2 : halfedge_descriptor) (g : PM) : PM :=
  { g with next := Function.update g.next h1 h2
           prev := Function.update g.prev h2 h1 }

/-- Modelled from the spec: `add_edge(g)` allocates one new mesh edge, a pair of
opposite half-edges, at the end of the arena.  The edge descriptor returned is
the index of its first half-edge; the second is the next index. -/
def add_edge (g : PM) : edge_descriptor × PM :=
  (g.num_halfedges,
   { g with
     opposite := Function.update
       (Function.update g.opposite g.num_halfedges (g.num_halfedges + 1))
       (g.num_halfedges + 1) g.num_halfedges
     face := Function.update (Function.update g.face g.num_halfedges none)
       (g.num_halfedges + 1) none
     num_halfedges := g.num_halfedges + 2 })

/-- Modelled from the spec: `Euler::make_hole(h, g)` (`cut_face`) removes the
face of `h`; the half-edges of its boundary cycle survive and bound a hole. -/
def make_hole (h : halfedge_descriptor) (g : PM) : Option PM :=
  (halfedges_around_face h g).map fun hs =>
    { g with
      face := fun x => if x ∈ hs then none else g.face x
      faces := match g.face h with
        | some fd => g.faces.erase fd
        | none => g.faces }

/-- Modelled from the spec: `Euler::fill_hole(h, g)` creates a new face from the
half-edge cycle through `h`. -/
def fill_hole (h : halfedge_descriptor) (g : PM) : Option PM :=
  (halfedges_around_face h g).map fun hs =>
    { g with
      face := fun x => if x ∈ hs then some g.num_faces else g.face x
      halfedge := Function.update g.halfedge g.num_faces h
      faces := g.faces ++ [g.num_faces]
      num_faces := g.num_faces + 1 }

/-- Mutating calls made on the mesh, in the order they happen. -/
inductive Call where
  | make_hole (h : halfedge_descriptor)
  | add_edge
  | set_target (h : halfedge_descriptor) (v : vertex_descriptor)
  | set_next (h1 h2 : halfedge_descriptor)
  | fill_hole (h : halfedge_descriptor)
deriving DecidableEq, Repr

/-- The mesh being modified in place and the record of the calls made on it. -/
structure State where
  pmesh : PM
  trace : List Call

/-- Ways in which the call can fail to complete. -/
inductive Error where
  | DegenerateFaceError
  | FatalInvariantViolation
  | null_descriptor
  | out_of_fuel
deriving DecidableEq, Repr

/-! ## Face selector (lines 99-104) -/

/-- The test `next(next(halfedge(fit))) != prev(halfedge(fit))`. -/
def non_triangular (g : PM) (fit : face_descriptor) : Bool :=
  g.next (g.next (g.halfedge fit)) != g.prev (g.halfedge fit)

/-- The vector `facets` once the loop over `faces(pmesh)` is done. -/
def facets (g : PM) : List face_descriptor :=
  g.faces.filter (non_triangular g)

/-- Length of the boundary cycle of a face. -/
def degree (g : PM) (f : face_descriptor) : Option Nat :=
  (halfedges_around_face (g.halfedge f) g).map List.length

/-! ## Normal estimation (line 110) -/

/-- Positions of the boundary vertices of a face, read from the mesh. -/
def face_points (f : face_descriptor) (g : PM) : Option (List Point_3) :=
  (halfedges_around_face (g.halfedge f) g).map
    (List.map fun h => g.point (g.target h))

/-- Sum of the cross products of the fan of triangles around the first point
of a polygon. -/
def sum_normals : List Point_3 → Vector_3
  | [] => Point_3.zero
  | p0 :: rest =>
    ((rest.zip rest.tail).map fun ab =>
      cross_product (ab.1.sub p0) (ab.2.sub p0)).foldr Point_3.add Point_3.zero

/-- Modelled from the spec: `compute_face_normal(f, pmesh)` is not part of the
file.  Section 4.2 step 1: estimate a normal vector for the face from the
positions of its vertices; it fails with `DegenerateFaceError` when the polygon
is degenerate and no normal can be estimated, here when the estimate is the
null vector. -/
def compute_face_normal (f : face_descriptor) (g : PM) : Except Error Vector_3 :=
  match face_points f g with
  | none => .error .out_of_fuel
  | some pts =>
    if sum_normals pts = Point_3.zero then .error .DegenerateFaceError
    else .ok (sum_normals pts)

/-- All the points of a list lie on one line: any three of them span no area. -/
def collinear (pts : List Point_3) : Prop :=
  ∀ a ∈ pts, ∀ b ∈ pts, ∀ c ∈ pts, cross_product (b.sub a) (c.sub a) = Point_3.zero

/-! ## Triangulation engine -/

/-- The record `Face_info`: three half-edge slots and the exterior flag.  A
slot holding `none` is a default-constructed `halfedge_descriptor()`. -/
structure Face_info where
  e : Fin 3 → Option halfedge_descriptor
  is_external : Bool

/-- Modelled from the spec: the faces of the triangulation as the engine
exposes them (face and edge iteration, neighbor and constraint queries,
section 2).  Faces and vertices are handles into the engine; `infinite_face`
is `infinite_vertex()->face()`. -/
structure Tds where
  all_faces : List Nat
  finite_faces : List Nat
  finite_edges : List (Nat × Fin 3)
  infinite_face : Nat
  vertex : Nat → Fin 3 → Nat
  neighbor : Nat → Fin 3 → Nat
  is_constrained : Nat → Fin 3 → Bool

/-- Modelled from the spec: `cw(i)`, the index before `i` in a face. -/
def cw (i : Fin 3) : Fin 3 := i + 2

/-- Modelled from the spec: `ccw(i)`, the index after `i` in a face. -/
def ccw (i : Fin 3) : Fin 3 := i + 1

/-- Modelled from the spec: `f->index(n)`, the index under which `n` is a
neighbor of `f`. -/
def Tds.index (t : Tds) (f n : Nat) : Fin 3 :=
  if t.neighbor f 0 = n then 0 else if t.neighbor f 1 = n then 1 else 2

/-- The engine that turns the inserted points and constraints, seen along the
normal, into a triangulation.  It is a parameter of the development. -/
abbrev Engine := Vector_3 → List Point_3 → List (Nat × Nat) → Tds

/-- Modelled from the spec: the triangulation `cdt` while the boundary is
inserted.  A vertex handle is the index of its point; `info` is the half-edge
back-reference of a vertex; `constraints` lists the `insert_constraint` calls
in order. -/
structure CDT where
  normal : Vector_3
  points : List Point_3
  info : Nat → Option halfedge_descriptor
  constraints : List (Nat × Nat)

/-- Modelled from the spec: `project(point, normal)`, the point as the engine
sees it, in the plane orthogonal to the normal (sections 4.2 and 9).  The cross
product with the normal is the orthogonal projection onto that plane, turned by
a quarter turn and scaled by the length of the normal: two points have the same
projection exactly when they differ by a multiple of the normal. -/
def project (normal : Vector_3) (p : Point_3) : Vector_3 := cross_product p normal

/-- Modelled from the spec: `cdt.insert(p)` returns the vertex of `p`.  The
engine compares points by their projection: a position that projects onto the
point of a vertex gets that vertex, whose point stays as it is (sections 4.2
and 7, two boundary vertices that project to the same point); any other
position gets a new vertex. -/
def CDT.insert (c : CDT) (p : Point_3) : Nat × CDT :=
  if (c.points.map (project c.normal)).indexOf (project c.normal p) < c.points.length then
    ((c.points.map (project c.normal)).indexOf (project c.normal p), c)
  else (c.points.length, { c with points := c.points ++ [p] })

/-- The assignment `vh->info() = h`. -/
def CDT.set_info (c : CDT) (vh : Nat) (h : halfedge_descriptor) : CDT :=
  { c with info := Function.update c.info vh (some h) }

/-- Modelled from the spec: `cdt.insert_constraint(a, b)`. -/
def CDT.insert_constraint (c : CDT) (a b : Nat) : CDT :=
  { c with constraints := c.constraints ++ [(a, b)] }

/-! ## Planar triangulator (lines 118-135) -/

/-- Local variables of the boundary walk. -/
structure Walk where
  cdt : CDT
  h : halfedge_descriptor
  previous : Option Nat
  first : Option Nat

/-- The do-while loop of lines 121-134. -/
def boundary_walk (vpmap : vertex_descriptor → Point_3) (g : PM)
    (start : halfedge_descriptor) : Nat → Walk → Option Walk
  | 0, _ => none
  | fuel + 1, w =>
    let r := w.cdt.insert (vpmap (g.target w.h))
    let vh := r.1
    let first := if w.first = none then some vh else w.first
    let c1 := r.2.set_info vh w.h
    let c2 := match w.previous with
      | some previous => if previous ≠ vh then c1.insert_constraint previous vh else c1
      | none => c1
    let w1 : Walk := ⟨c2, g.next w.h, some vh, first⟩
    if w1.h ≠ start then boundary_walk vpmap g start fuel w1 else some w1

/-- Lines 113-135: the walk from `start = halfedge(f)` followed by the closing
`cdt.insert_constraint(previous, first)`.  The half-edge variable `h` is kept
with the result, since it is still in scope afterwards. -/
def planar_triangulator (vpmap : vertex_descriptor → Point_3) (g : PM)
    (f : face_descriptor) (normal : Vector_3) : Except Error Walk :=
  match boundary_walk vpmap g (g.halfedge f) g.num_halfedges
      ⟨⟨normal, [], fun _ => none, []⟩, g.halfedge f, none, none⟩ with
  | none => .error .out_of_fuel
  | some w =>
    match w.previous, w.first with
    | some previous, some first =>
      .ok { w with cdt := w.cdt.insert_constraint previous first }
    | _, _ => .error .null_descriptor

/-! ## Region classifier (lines 138-158) -/

/-- The assignment `fh->info().is_external = b`. -/
def set_external (fi : Nat → Face_info) (fh : Nat) (b : Bool) : Nat → Face_info :=
  Function.update fi fh { fi fh with is_external := b }

/-- The faces pushed by the inner loop `for (i = 0; i < 3; ++i)`. -/
def pushed (t : Tds) (fh : Nat) : List Nat :=
  (([0, 1, 2] : List (Fin 3)).filter fun i => !t.is_constrained fh i).map
    (t.neighbor fh)

/-- The loop `while (!face_queue.empty())`; the queue is the list, front
first. -/
def flood_fill (t : Tds) : Nat → List Nat → (Nat → Face_info) → Option (Nat → Face_info)
  | _, [], fi => some fi
  | 0, _ :: _, _ => none
  | fuel + 1, fh :: queue, fi =>
    if (fi fh).is_external then flood_fill t fuel queue fi
    else flood_fill t fuel (queue ++ pushed t fh) (set_external fi fh true)

/-- Lines 138-158: every face is reset, then the flood fill runs from
`infinite_vertex()->face()`. -/
def region_classifier (t : Tds) : Option (Nat → Face_info) :=
  flood_fill t (1 + 3 * t.all_faces.length) [t.infinite_face]
    (t.all_faces.foldl (fun fi fit => set_external fi fit false)
      fun _ => ⟨fun _ => none, false⟩)

/-! ## Stitcher (lines 160-215) -/

/-- The mesh and the face records while the stitcher runs. -/
structure Stitch where
  st : State
  finfo : Nat → Face_info

/-- A failure carries the state of the mesh at the moment it happens. -/
abbrev Res (α : Type) := Except (Error × State) α

/-- The assignment `fh->info().e[index] = v`. -/
def set_e (fi : Nat → Face_info) (fh : Nat) (index : Fin 3)
    (v : Option halfedge_descriptor) : Nat → Face_info :=
  Function.update fi fh { fi fh with e := Function.update (fi fh).e index v }

/-- Lines 175-185, the branch for a strictly internal edge.  `h` is the
half-edge variable of the boundary walk; the descriptor returned by `add_edge`
is not used. -/
def internal_edge (t : Tds) (c : CDT) (h : halfedge_descriptor) (s : Stitch)
    (eit : Nat × Fin 3) : Res Stitch :=
  let fh := eit.1
  let index := eit.2
  let opposite_fh := t.neighbor fh index
  let opposite_index := t.index opposite_fh fh
  let va := t.vertex fh (cw index)
  let vb := t.vertex fh (ccw index)
  if !((s.finfo fh).is_external && (s.finfo opposite_fh).is_external)
      && !t.is_constrained fh index then
    let g1 := (add_edge s.st.pmesh).2
    let tr1 := s.st.trace ++ [Call.add_edge]
    let fi1 := set_e s.finfo fh index (some h)
    let fi2 := set_e fi1 opposite_fh opposite_index (some (g1.opposite h))
    match c.info va with
    | none => .error (.null_descriptor, ⟨g1, tr1⟩)
    | some ha =>
      let g2 := set_target h (g1.target ha) g1
      let tr2 := tr1 ++ [Call.set_target h (g1.target ha)]
      match c.info vb with
      | none => .error (.null_descriptor, ⟨g2, tr2⟩)
      | some hb =>
        .ok ⟨⟨set_target (g2.opposite h) (g2.target hb) g2,
              tr2 ++ [Call.set_target (g2.opposite h) (g2.target hb)]⟩, fi2⟩
  else .ok s

/-- Lines 186-194, the branch for a constrained edge. -/
def constrained_edge (t : Tds) (c : CDT) (s : Stitch) (eit : Nat × Fin 3) : Stitch :=
  let fh := eit.1
  let index := eit.2
  let opposite_fh := t.neighbor fh index
  let opposite_index := t.index opposite_fh fh
  let va := t.vertex fh (cw index)
  let vb := t.vertex fh (ccw index)
  if t.is_constrained fh index then
    let fi1 := if !(s.finfo fh).is_external then set_e s.finfo fh index (c.info va)
      else s.finfo
    let fi2 := if !(fi1 opposite_fh).is_external then
        set_e fi1 opposite_fh opposite_index (c.info vb)
      else fi1
    { s with finfo := fi2 }
  else s

/-- Body of the loop over the finite edges (lines 167-195). -/
def stitch_edge (t : Tds) (c : CDT) (h : halfedge_descriptor) (s : Stitch)
    (eit : Nat × Fin 3) : Res Stitch :=
  (internal_edge t c h s eit).map fun s1 => constrained_edge t c s1 eit

/-- Body of the loop over the finite faces (lines 199-215).  A failed
`CGAL_assertion` is the fatal invariant violation of section 7. -/
def stitch_face (s : Stitch) (fit : Nat) : Res Stitch :=
  if !(s.finfo fit).is_external then
    match (s.finfo fit).e 0, (s.finfo fit).e 1, (s.finfo fit).e 2 with
    | some h0, some h1, some h2 =>
      let g3 := set_next h2 h0 (set_next h1 h2 (set_next h0 h1 s.st.pmesh))
      let tr3 := s.st.trace ++ [Call.set_next h0 h1, Call.set_next h1 h2, Call.set_next h2 h0]
      match fill_hole h0 g3 with
      | none => .error (.out_of_fuel, ⟨g3, tr3⟩)
      | some g4 => .ok { s with st := ⟨g4, tr3 ++ [Call.fill_hole h0]⟩ }
    | _, _, _ => .error (.FatalInvariantViolation, s.st)
  else .ok s

/-- Lines 160-195: `make_hole(halfedge(f))`, then the loop over the finite
edges. -/
def stitch_edges (t : Tds) (c : CDT) (h : halfedge_descriptor) (f : face_descriptor)
    (fi : Nat → Face_info) (s : State) : Res Stitch :=
  match make_hole (s.pmesh.halfedge f) s.pmesh with
  | none => .error (.out_of_fuel, s)
  | some g1 =>
    t.finite_edges.foldlM (stitch_edge t c h)
      ⟨⟨g1, s.trace ++ [Call.make_hole (s.pmesh.halfedge f)]⟩, fi⟩

/-- Lines 196-215: the loop over the finite faces. -/
def stitch_faces (t : Tds) (s : Stitch) : Res Stitch :=
  t.finite_faces.foldlM stitch_face s

/-! ## The modifier (lines 94-217) -/

/-- Local variables of the loop body when line 160 is reached: the
triangulation, the variables of the walk, the face records. -/
structure Prepared where
  t : Tds
  w : Walk
  fi : Nat → Face_info

/-- Lines 109-158 for one face `f`: normal, planar triangulator, region
classifier.  Nothing is written to the mesh. -/
def prepare (engine : Engine) (vpmap : vertex_descriptor → Point_3)
    (f : face_descriptor) (s : State) : Res Prepared :=
  match compute_face_normal f s.pmesh with
  | .error err => .error (err, s)
  | .ok normal =>
    match planar_triangulator vpmap s.pmesh f normal with
    | .error err => .error (err, s)
    | .ok w =>
      match region_classifier (engine w.cdt.normal w.cdt.points w.cdt.constraints) with
      | none => .error (.out_of_fuel, s)
      | some fi => .ok ⟨engine w.cdt.normal w.cdt.points w.cdt.constraints, w, fi⟩

/-- Body of the loop over `facets` (lines 108-216) for one face `f`. -/
def process_face (engine : Engine) (vpmap : vertex_descriptor → Point_3)
    (f : face_descriptor) (s : State) : Res State :=
  (prepare engine vpmap f s).bind fun p =>
    (stitch_edges p.t p.w.cdt p.w.h f p.fi s).bind fun s1 =>
      (stitch_faces p.t s1).map fun s2 => s2.st

/-- The loop `for (i = 0; i < facets.size(); ++i)`; it stops at the first face
that fails. -/
def triangulate_loop (engine : Engine) (vpmap : vertex_descriptor → Point_3) :
    List face_descriptor → State → Res State
  | [], s => .ok s
  | f :: rest, s =>
    match process_face engine vpmap f s with
    | .error err => .error err
    | .ok s1 => triangulate_loop engine vpmap rest s1

/-- The call `triangulate_faces(pmesh, vpmap, k)`: the result is the mesh and
the calls made on it, or the failure and the mesh as the failure left it. -/
def triangulate_faces (engine : Engine) (vpmap : vertex_descriptor → Point_3)
    (pmesh : PM) : Res State :=
  triangulate_loop engine vpmap (facets pmesh) ⟨pmesh, []⟩

/-! ## Concrete meshes -/

/-- The unit square `(0,0,0), (1,0,0), (1,1,0), (0,1,0)` as a mesh with one
face.  Half-edge `2 * i` runs around face `0` and has target vertex `i`;
half-edge `2 * i + 1` is its opposite, on the border. -/
def unit_square : PM where
  faces := [0]
  halfedge := fun _ => 0
  next := fun h => if 8 ≤ h then h else if h % 2 = 0 then (h + 2) % 8 else (h + 6) % 8
  prev := fun h => if 8 ≤ h then h else if h % 2 = 0 then (h + 6) % 8 else (h + 2) % 8
  opposite := fun h => if h % 2 = 0 then h + 1 else h - 1
  target := fun h => if h % 2 = 0 then (h / 2) % 4 else (h / 2 + 3) % 4
  face := fun h => if h % 2 = 0 then some 0 else none
  point := fun v =>
    if v = 0 then ⟨0, 0, 0⟩ else if v = 1 then ⟨1, 0, 0⟩
    else if v = 2 then ⟨1, 1, 0⟩ else ⟨0, 1, 0⟩
  num_halfedges := 8
  num_faces := 1

/-- The triangulation of the unit square with the diagonal from vertex `0` to
vertex `2`.  Faces `0 = (0, 1, 2)` and `1 = (0, 2, 3)` are finite, faces `2` to
`5` are the infinite faces along the four sides, vertex `4` is the infinite
vertex.  The four sides are constrained.  `side` tells from which of its two
faces the edge iterator reports the diagonal: from face `0` when `false`, from
face `1` when `true`. -/
def square_tds (side : Bool) : Tds where
  all_faces := [0, 1, 2, 3, 4, 5]
  finite_faces := [0, 1]
  finite_edges :=
    if side then [(0, 0), (0, 2), (1, 0), (1, 1), (1, 2)]
    else [(0, 0), (0, 1), (0, 2), (1, 0), (1, 1)]
  infinite_face := 2
  vertex := fun f i =>
    ([[0, 1, 2], [0, 2, 3], [1, 0, 4], [2, 1, 4], [3, 2, 4], [0, 3, 4]].getD f []).getD i.val 4
  neighbor := fun f i =>
    ([[3, 1, 2], [4, 5, 0], [5, 3, 0], [2, 4, 0], [3, 5, 1], [4, 2, 1]].getD f []).getD i.val 0
  is_constrained := fun f i =>
    ([[true, false, true], [true, true, false], [false, false, true],
      [false, false, true], [false, false, true], [false, false, true]].getD f []).getD
      i.val false

/-- The triangulation with no face. -/
def empty_tds : Tds where
  all_faces := []
  finite_faces := []
  finite_edges := []
  infinite_face := 0
  vertex := fun _ _ => 0
  neighbor := fun _ _ => 0
  is_constrained := fun _ _ => false

/-- An engine that triangulates the boundary of the unit square, inserted from
vertex `0`, as `square_tds side`. -/
def square_engine (side : Bool) : Engine := fun _ points constraints =>
  if points = [⟨0, 0, 0⟩, ⟨1, 0, 0⟩, ⟨1, 1, 0⟩, ⟨0, 1, 0⟩]
      ∧ constraints = [(0, 1), (1, 2), (2, 3), (3, 0)] then square_tds side
  else empty_tds

/-- The mesh `unit_square` with vertex `3` moved onto vertex `0`: the last and
the first boundary vertex of the face have the same position. -/
def pinched_square : PM :=
  { unit_square with
    point := fun v =>
      if v = 0 then ⟨0, 0, 0⟩ else if v = 1 then ⟨1, 0, 0⟩
      else if v = 2 then ⟨1, 1, 0⟩ else ⟨0, 0, 0⟩ }

/-- A mesh with one face of two sides: half-edges `0` and `2` run around face
`0` between vertices `0` and `1`, half-edges `1` and `3` are their opposites. -/
def digon : PM where
  faces := [0]
  halfedge := fun _ => 0
  next := fun h => if 4 ≤ h then h else (h + 2) % 4
  prev := fun h => if 4 ≤ h then h else (h + 2) % 4
  opposite := fun h => if h % 2 = 0 then h + 1 else h - 1
  target := fun h => if h % 4 = 0 ∨ h % 4 = 3 then 1 else 0
  face := fun h => if h % 2 = 0 then some 0 else none
  point := fun v => if v = 0 then ⟨0, 0, 0⟩ else ⟨1, 0, 0⟩
  num_halfedges := 4
  num_faces := 1

/-- The mesh `unit_square` with its four vertices moved onto the line
`y = 0, z = 0`. -/
def flat_square : PM :=
  { unit_square with point := fun v => ⟨v, 0, 0⟩ }

/-- A mesh with one triangular face: half-edge `2 * i` runs around face `0` and
has target vertex `i`, half-edge `2 * i + 1` is its opposite, on the border. -/
def triangle : PM where
  faces := [0]
  halfedge := fun _ => 0
  next := fun h => if 6 ≤ h then h else if h % 2 = 0 then (h + 2) % 6 else (h + 4) % 6
  prev := fun h => if 6 ≤ h then h else if h % 2 = 0 then (h + 4) % 6 else (h + 2) % 6
  opposite := fun h => if h % 2 = 0 then h + 1 else h - 1
  target := fun h => if h % 2 = 0 then (h / 2) % 3 else (h / 2 + 2) % 3
  face := fun h => if h % 2 = 0 then some 0 else none
  point := fun v =>
    if v = 0 then ⟨0, 0, 0⟩ else if v = 1 then ⟨1, 0, 0⟩ else ⟨0, 1, 0⟩
  num_halfedges := 6
  num_faces := 1

/-- Positions for the vertices of `unit_square` that run clockwise around the
square when seen from the tip of the normal `(0, 0, 2)` of the face: the
positions of vertices `1` and `3` are exchanged. -/
def clockwise_point (v : vertex_descriptor) : Point_3 :=
  if v = 0 then ⟨0, 0, 0⟩ else if v = 1 then ⟨0, 1, 0⟩
  else if v = 2 then ⟨1, 1, 0⟩ else ⟨1, 0, 0⟩

/-- The triangulation of the points of `clockwise_point` with the diagonal from
vertex `0` to vertex `2`: faces `0 = (0, 3, 2)` and `1 = (0, 2, 1)` are finite
and counterclockwise, faces `2` to `5` are the infinite faces, vertex `4` is the
infinite vertex, the four sides are constrained. -/
def clockwise_tds : Tds :=
  { square_tds false with
    vertex := fun f i =>
      ([[0, 3, 2], [0, 2, 1], [3, 0, 4], [2, 3, 4], [1, 2, 4], [0, 1, 4]].getD f []).getD
        i.val 4 }

/-- An engine that triangulates the boundary given by `clockwise_point`, inserted
from vertex `0`, as `clockwise_tds`. -/
def clockwise_engine : Engine := fun _ points constraints =>
  if points = [⟨0, 0, 0⟩, ⟨0, 1, 0⟩, ⟨1, 1, 0⟩, ⟨1, 0, 0⟩]
      ∧ constraints = [(0, 1), (1, 2), (2, 3), (3, 0)] then clockwise_tds
  else empty_tds

/-- The flags of the triangulation of a square once classified: the two finite
faces `0` and `1` are interior. -/
def square_flags : Nat → Face_info := fun F => ⟨fun _ => none, decide (2 ≤ F)⟩

/-- A mesh with one face of six sides, the unit square with two fins along
`z`: the positions of its vertices `0` to `5` are `(0,0,0)`, `(1,0,0)`,
`(1,0,1)`, `(1,1,0)`, `(0,1,0)`, `(0,1,1)`, pairwise distinct; the estimated
normal is `(0,0,2)`, so vertices `1` and `2` project to the same point, and so
do vertices `4` and `5`.  Half-edge `2 * i` runs around face `0` and has target
vertex `i`; half-edge `2 * i + 1` is its opposite, on the border. -/
def fin_hexagon : PM where
  faces := [0]
  halfedge := fun _ => 0
  next := fun h => if 12 ≤ h then h else if h % 2 = 0 then (h + 2) % 12 else (h + 10) % 12
  prev := fun h => if 12 ≤ h then h else if h % 2 = 0 then (h + 10) % 12 else (h + 2) % 12
  opposite := fun h => if h % 2 = 0 then h + 1 else h - 1
  target := fun h => if h % 2 = 0 then (h / 2) % 6 else (h / 2 + 5) % 6
  face := fun h => if h % 2 = 0 then some 0 else none
  point := fun v =>
    if v = 0 then ⟨0, 0, 0⟩ else if v = 1 then ⟨1, 0, 0⟩
    else if v = 2 then ⟨1, 0, 1⟩ else if v = 3 then ⟨1, 1, 0⟩
    else if v = 4 then ⟨0, 1, 0⟩ else ⟨0, 1, 1⟩
  num_halfedges := 12
  num_faces := 1

/-! ## Vocabulary of the claims -/

/-- Face `b` is the neighbor of face `a` across an edge of `a` that is not
constrained. -/
def crosses (t : Tds) (a b : Nat) : Prop :=
  ∃ i : Fin 3, t.is_constrained a i = false ∧ t.neighbor a i = b

/-- The faces of the triangulation whose exterior flag is not set. -/
def unmarked (t : Tds) (fi : Nat → Face_info) : Finset Nat :=
  t.all_faces.toFinset.filter fun f => (fi f).is_external = false

/-- The state of the flood fill between two iterations: marked and queued
faces can be reached from the seed, the seed has been seen, every neighbor
across an unconstrained edge of a marked face is marked or queued, and the
queue holds faces of the triangulation. -/
structure FloodInv (t : Tds) (queue : List Nat) (fi : Nat → Face_info) : Prop where
  marked_reach : ∀ f, (fi f).is_external = true →
    Relation.ReflTransGen (crosses t) t.infinite_face f
  queue_reach : ∀ q ∈ queue, Relation.ReflTransGen (crosses t) t.infinite_face q
  seed_seen : (fi t.infinite_face).is_external = true ∨ t.infinite_face ∈ queue
  closed : ∀ f, (fi f).is_external = true → ∀ b, crosses t f b →
    (fi b).is_external = true ∨ b ∈ queue
  queue_faces : ∀ q ∈ queue, q ∈ t.all_faces

/-- The state of the flood fill together with a record of what the loop has
done: `marked` lists the faces for which the body ran past the visited check,
in order, and `pushes` counts the calls of `face_queue.push`. -/
structure Flood_log where
  fi : Nat → Face_info
  marked : List Nat
  pushes : Nat

/-- The loop `while (!face_queue.empty())` of `flood_fill`, keeping the
record. -/
def flood_fill_log (t : Tds) : Nat → List Nat → Flood_log → Option Flood_log
  | _, [], l => some l
  | 0, _ :: _, _ => none
  | fuel + 1, fh :: queue, l =>
    if (l.fi fh).is_external then flood_fill_log t fuel queue l
    else flood_fill_log t fuel (queue ++ pushed t fh)
      ⟨set_external l.fi fh true, l.marked ++ [fh], l.pushes + (pushed t fh).length⟩

/-- The region classifier, keeping the record; the push of the seed on line 145
is the first push. -/
def region_classifier_log (t : Tds) : Option Flood_log :=
  flood_fill_log t (1 + 3 * t.all_faces.length) [t.infinite_face]
    ⟨t.all_faces.foldl (fun fi fit => set_external fi fit false)
      fun _ => ⟨fun _ => none, false⟩, [], 1⟩

/-- What the record of the flood fill satisfies between two iterations. -/
structure LogInv (t : Tds) (l : Flood_log) : Prop where
  nodup : l.marked.Nodup
  flagged : ∀ f ∈ l.marked, (l.fi f).is_external = true
  faces : ∀ f ∈ l.marked, f ∈ t.all_faces
  pushes_le : l.pushes ≤ 1 + 3 * l.marked.length

/-- One iteration of the do-while loop of lines 121-134, the body of
`boundary_walk`. -/
def walk_body (vpmap : vertex_descriptor → Point_3) (g : PM) (w : Walk) : Walk :=
  let r := w.cdt.insert (vpmap (g.target w.h))
  let vh := r.1
  let first := if w.first = none then some vh else w.first
  let c1 := r.2.set_info vh w.h
  let c2 := match w.previous with
    | some previous => if previous ≠ vh then c1.insert_constraint previous vh else c1
    | none => c1
  ⟨c2, g.next w.h, some vh, first⟩

/-- The vertex back-references once the half-edges `done` have been walked,
for a triangulation that projects along `n`: the points of the vertices have
pairwise distinct projections, the position of every walked half-edge projects
onto the point of a vertex, a vertex is tagged with the last walked half-edge
whose target projects onto its point, handles not given out carry no tag, and
the points are the positions in the order of the walk when the projections of
these are pairwise distinct. -/
structure InfoInv (vpmap : vertex_descriptor → Point_3) (g : PM) (n : Vector_3)
    (done : List halfedge_descriptor) (c : CDT) : Prop where
  normal_eq : c.normal = n
  nodup : (c.points.map (project n)).Nodup
  inserted : ∀ h ∈ done, project n (vpmap (g.target h)) ∈ c.points.map (project n)
  tagged : ∀ v p, c.points[v]? = some p →
    ∃ pre h post, done = pre ++ h :: post ∧ c.info v = some h ∧
      project n (vpmap (g.target h)) = project n p ∧
      ∀ x ∈ post, project n (vpmap (g.target x)) ≠ project n p
  untagged : ∀ v, c.points.length ≤ v → c.info v = none
  order : (done.map fun h => project n (vpmap (g.target h))).Nodup →
    c.points = done.map fun h => vpmap (g.target h)

/-- A triangulation with `n` inserted vertices is well formed: the seed is one
of its faces and the faces are closed under `neighbor`; across every edge of a
finite face `neighbor` and `index` lead back to the face and to the edge; every
edge of a finite face is reported by the iterator over the finite edges from
one of its two sides; and the two vertices of a finite edge are inserted
vertices. -/
def Tds.well_formed (t : Tds) (n : Nat) : Prop :=
  t.infinite_face ∈ t.all_faces ∧
  (∀ f ∈ t.all_faces, ∀ i, t.neighbor f i ∈ t.all_faces) ∧
  (∀ F ∈ t.finite_faces, ∀ i,
    t.neighbor (t.neighbor F i) (t.index (t.neighbor F i) F) = F ∧
    t.index F (t.neighbor F i) = i) ∧
  (∀ F ∈ t.finite_faces, ∀ i,
    (F, i) ∈ t.finite_edges ∨
      (t.neighbor F i, t.index (t.neighbor F i) F) ∈ t.finite_edges) ∧
  (∀ eit ∈ t.finite_edges,
    t.vertex eit.1 (cw eit.2) < n ∧ t.vertex eit.1 (ccw eit.2) < n)

/-- The trace of a run that completed. -/
def trace_of (r : Res State) : Option (List Call) :=
  r.toOption.map fun s => s.trace

/-- The mesh of a run that completed, looked up with `q`. -/
def mesh_of {α : Type} (q : PM → α) (r : Res State) : Option α :=
  r.toOption.map fun s => q s.pmesh

/-- Lines 109-195 for one face: everything up to the end of the loop over the
finite edges. -/
def process_edges (engine : Engine) (vpmap : vertex_descriptor → Point_3)
    (f : face_descriptor) (s : State) : Res Stitch :=
  (prepare engine vpmap f s).bind fun p => stitch_edges p.t p.w.cdt p.w.h f p.fi s

/-- The half-edge slots `e[0], e[1], e[2]` of the listed faces. -/
def slots_of (fs : List Nat) (s : Stitch) : List (List (Option halfedge_descriptor)) :=
  fs.map fun f => ([0, 1, 2] : List (Fin 3)).map (s.finfo f).e

end PMP

namespace PMP

/-! ## Boundary cycles -/

/-- What `cycle_from` returns: the iterates of `next` from `h`, up to the first
one that is `start`. -/
theorem cycle_from_spec (g : PM) (start : halfedge_descriptor) :
    ∀ (fuel : Nat) (h : halfedge_descriptor) (hs : List halfedge_descriptor),
      cycle_from g start fuel h = some hs →
        hs = (List.range hs.length).map (fun k => g.next^[k] h) ∧
        0 < hs.length ∧ g.next^[hs.length] h = start ∧
        ∀ k, 0 < k → k < hs.length → g.next^[k] h ≠ start := by
  intro fuel
  induction fuel with
  | zero => intro h hs hc; simp [cycle_from] at hc
  | succ fuel ih =>
    intro h hs hc
    unfold cycle_from at hc
    by_cases hnext : g.next h = start
    · rw [if_pos hnext] at hc
      obtain rfl : [h] = hs := by simpa using hc
      refine ⟨by simp, by simp, by simpa using hnext, ?_⟩
      intro k h0 h1
      simp at h1
      omega
    · rw [if_neg hnext] at hc
      cases hrec : cycle_from g start fuel (g.next h) with
      | none => simp [hrec] at hc
      | some hs1 =>
        rw [hrec] at hc
        obtain rfl : h :: hs1 = hs := by simpa using hc
        obtain ⟨e1, _, e3, e4⟩ := ih (g.next h) hs1 hrec
        refine ⟨?_, by simp, ?_, ?_⟩
        · rw [List.length_cons, List.range_succ_eq_map, List.map_cons, List.map_map]
          simp only [Function.iterate_zero, id_eq]
          congr 1
        · simpa [Function.iterate_succ_apply] using e3
        · intro k h0 h1
          obtain ⟨j, rfl⟩ : ∃ j, k = j + 1 := ⟨k - 1, by omega⟩
          rw [Function.iterate_succ_apply]
          rcases Nat.eq_zero_or_pos j with hj | hj
          · subst hj; simpa using hnext
          · exact e4 j hj (by simpa using h1)

/-- The selector test in terms of the length of the boundary cycle. -/
theorem non_triangular_iff_degree (g : PM) (hinv : ∀ h, g.prev (g.next h) = h)
    (f : face_descriptor) (n : Nat) (hdeg : degree g f = some n) :
    non_triangular g f = true ↔ n = 2 ∨ 3 < n := by
  unfold degree halfedges_around_face at hdeg
  cases hc : cycle_from g (g.halfedge f) g.num_halfedges (g.halfedge f) with
  | none => simp [hc] at hdeg
  | some hs =>
    rw [hc] at hdeg
    obtain rfl : hs.length = n := by simpa using hdeg
    obtain ⟨_, hpos, hret, hmin⟩ := cycle_from_spec g _ _ _ _ hc
    have hinj : Function.Injective g.next :=
      Function.LeftInverse.injective hinv
    set h := g.halfedge f with hh
    have hprev : g.prev h = g.next^[hs.length - 1] h := by
      have e : g.next (g.next^[hs.length - 1] h) = h := by
        rw [← Function.iterate_succ_apply' g.next]
        have : (hs.length - 1).succ = hs.length := by omega
        rw [this]; exact hret
      rw [← hinv (g.next^[hs.length - 1] h), e]
    have htest : non_triangular g f = true ↔ g.next^[2] h ≠ g.next^[hs.length - 1] h := by
      unfold non_triangular
      rw [← hh, hprev]
      simp
    rw [htest]
    rcases Nat.lt_or_ge 3 hs.length with h4 | h3
    · constructor
      · intro _; exact Or.inr h4
      · intro _ heq
        have e2 : g.next^[hs.length - 1] h = g.next^[2] (g.next^[hs.length - 3] h) := by
          rw [← Function.iterate_add_apply]
          congr 1; omega
        rw [e2] at heq
        have := (hinj.iterate 2) heq
        exact hmin (hs.length - 3) (by omega) (by omega) this.symm
    · have hcases : hs.length = 1 ∨ hs.length = 2 ∨ hs.length = 3 := by omega
      rcases hcases with h1 | h2 | h3
      · rw [h1] at hret ⊢
        have e : g.next h = h := by simpa using hret
        simp [e]
      · rw [h2] at hmin ⊢
        have e := hmin 1 (by omega) (by omega)
        have e2 : g.next^[2] h = h := by rw [← h2]; exact hret
        constructor
        · intro _; exact Or.inl rfl
        · intro _ heq
          apply e
          rw [e2] at heq
          simpa using heq.symm
      · rw [h3]
        simp

/-! ## Concrete meshes are well formed -/

theorem unit_square_prev_next : ∀ h, unit_square.prev (unit_square.next h) = h := by
  intro h
  by_cases h8 : 8 ≤ h
  · simp [unit_square, h8]
  · have hlt : h < 8 := Nat.lt_of_not_le h8
    clear h8
    revert h hlt
    decide

theorem digon_prev_next : ∀ h, digon.prev (digon.next h) = h := by
  intro h
  by_cases h4 : 4 ≤ h
  · simp [digon, h4]
  · have hlt : h < 4 := Nat.lt_of_not_le h4
    clear h4
    revert h hlt
    decide

theorem triangle_prev_next : ∀ h, triangle.prev (triangle.next h) = h := by
  intro h
  by_cases h6 : 6 ≤ h
  · simp [triangle, h6]
  · have hlt : h < 6 := Nat.lt_of_not_le h6
    clear h6
    revert h hlt
    decide

/-! ## Face selector -/

/-- C4, the claim as stated fails: the face of `digon` has a boundary cycle of
length 2, the selector test is true on it and the face is put on the
worklist, although 2 does not exceed 3. -/
theorem facets_digon_counterexample :
    degree digon 0 = some 2 ∧
    ¬ (non_triangular digon 0 = true ↔ 3 < 2) ∧
    facets digon ≠
      digon.faces.filter (fun f => (degree digon f).any fun n => decide (3 < n)) :=
  ⟨by decide, by decide, by decide⟩

/-- C4 (amended): in a mesh where `prev` undoes `next` and every face has a
closed boundary cycle, the worklist is the subsequence of `faces(pmesh)`, in
enumeration order, of the faces whose boundary cycle has length 2 or more than
3; for a face of any cycle length `n` the selector test is true if and only if
`n = 2` or `n > 3`. -/
theorem facets_selects_by_degree (g : PM) (hinv : ∀ h, g.prev (g.next h) = h)
    (hcyc : ∀ f ∈ g.faces, (degree g f).isSome = true) :
    facets g =
        g.faces.filter (fun f => (degree g f).any fun n => decide (n = 2 ∨ 3 < n)) ∧
    ∀ f n, degree g f = some n → (non_triangular g f = true ↔ n = 2 ∨ 3 < n) := by
  refine ⟨?_, fun f n hdeg => non_triangular_iff_degree g hinv f n hdeg⟩
  unfold facets
  apply List.filter_congr
  intro f hf
  obtain ⟨n, hn⟩ := Option.isSome_iff_exists.mp (hcyc f hf)
  have key := non_triangular_iff_degree g hinv f n hn
  rw [hn]
  simp only [Option.any_some]
  by_cases hq : n = 2 ∨ 3 < n
  · rw [key.mpr hq]; simp [hq]
  · have : non_triangular g f = false := by
      cases hb : non_triangular g f with
      | false => rfl
      | true => exact absurd (key.mp hb) hq
    rw [this]; simp [hq]

/-- The amended C4 applied to the unit square, whose face has four sides. -/
theorem facets_selects_by_degree_witness :
    facets unit_square =
        unit_square.faces.filter
          (fun f => (degree unit_square f).any fun n => decide (n = 2 ∨ 3 < n)) ∧
    ∀ f n, degree unit_square f = some n →
      (non_triangular unit_square f = true ↔ n = 2 ∨ 3 < n) :=
  facets_selects_by_degree unit_square unit_square_prev_next (by decide)

/-! ## Triangle meshes -/

/-- C5: on a mesh in which every face has a boundary cycle of exactly 3
half-edges the worklist is empty, and `triangulate_faces` completes with the
mesh unchanged and without any call of `make_hole`, `add_edge`, `set_target`,
`set_next` or `fill_hole`. -/
theorem triangulate_faces_triangle_mesh (engine : Engine)
    (vpmap : vertex_descriptor → Point_3) (g : PM)
    (hinv : ∀ h, g.prev (g.next h) = h)
    (htri : ∀ f ∈ g.faces, degree g f = some 3) :
    facets g = [] ∧ triangulate_faces engine vpmap g = .ok ⟨g, []⟩ := by
  have hempty : facets g = [] := by
    unfold facets
    rw [List.filter_eq_nil_iff]
    intro f hf hsel
    have := (non_triangular_iff_degree g hinv f 3 (htri f hf)).mp hsel
    omega
  refine ⟨hempty, ?_⟩
  unfold triangulate_faces
  rw [hempty]
  rfl

/-- C5 applied to the mesh with one triangular face. -/
theorem triangulate_faces_triangle_mesh_witness :
    facets triangle = [] ∧
    triangulate_faces (square_engine false) triangle.point triangle = .ok ⟨triangle, []⟩ :=
  triangulate_faces_triangle_mesh (square_engine false) triangle.point triangle
    triangle_prev_next (by decide)

/-! ## Region classifier -/

theorem set_external_apply (fi : Nat → Face_info) (fh : Nat) (b : Bool) (f : Nat) :
    (set_external fi fh b f).is_external = if f = fh then b else (fi f).is_external := by
  unfold set_external
  by_cases h : f = fh
  · subst h; simp
  · simp [Function.update_noteq h, h]

theorem mem_pushed (t : Tds) (fh q : Nat) : q ∈ pushed t fh ↔ crosses t fh q := by
  unfold pushed crosses
  simp only [List.mem_map, List.mem_filter]
  constructor
  · rintro ⟨i, ⟨_, hi⟩, rfl⟩
    exact ⟨i, by simpa using hi, rfl⟩
  · rintro ⟨i, hi, rfl⟩
    refine ⟨i, ⟨?_, by simpa using hi⟩, rfl⟩
    fin_cases i <;> simp

theorem pushed_length_le (t : Tds) (fh : Nat) : (pushed t fh).length ≤ 3 := by
  unfold pushed
  rw [List.length_map]
  exact (List.length_filter_le _ _).trans (by simp)

theorem unmarked_set_external (t : Tds) (fi : Nat → Face_info) (fh : Nat)
    (hmem : fh ∈ t.all_faces) (hun : (fi fh).is_external = false) :
    (unmarked t (set_external fi fh true)).card + 1 = (unmarked t fi).card := by
  have hin : fh ∈ unmarked t fi := by
    simp [unmarked, hmem, hun]
  have heq : unmarked t (set_external fi fh true) = (unmarked t fi).erase fh := by
    ext f
    simp only [unmarked, Finset.mem_filter, Finset.mem_erase, List.mem_toFinset,
      set_external_apply]
    by_cases h : f = fh
    · simp [h]
    · simp [h]
  rw [heq, Finset.card_erase_of_mem hin]
  have : 0 < (unmarked t fi).card := Finset.card_pos.mpr ⟨fh, hin⟩
  omega

/-- The flood fill loop returns once the queue is empty, and keeps the
invariant on the way. -/
theorem flood_fill_inv (t : Tds)
    (hclosed : ∀ f ∈ t.all_faces, ∀ i, t.neighbor f i ∈ t.all_faces) :
    ∀ (fuel : Nat) (queue : List Nat) (fi : Nat → Face_info),
      FloodInv t queue fi → queue.length + 3 * (unmarked t fi).card ≤ fuel →
      ∃ fi1, flood_fill t fuel queue fi = some fi1 ∧ FloodInv t [] fi1 := by
  intro fuel
  induction fuel with
  | zero =>
    intro queue fi hinv hbound
    have hq : queue = [] := List.length_eq_zero.mp (by omega)
    subst hq
    exact ⟨fi, by simp [flood_fill], hinv⟩
  | succ fuel ih =>
    intro queue fi hinv hbound
    cases queue with
    | nil => exact ⟨fi, by simp [flood_fill], hinv⟩
    | cons fh q =>
      by_cases hm : (fi fh).is_external = true
      · have hstep : flood_fill t (fuel + 1) (fh :: q) fi = flood_fill t fuel q fi := by
          simp [flood_fill, hm]
        rw [hstep]
        apply ih
        · refine ⟨hinv.marked_reach, fun x hx => hinv.queue_reach x (List.mem_cons_of_mem _ hx),
            ?_, ?_, fun x hx => hinv.queue_faces x (List.mem_cons_of_mem _ hx)⟩
          · rcases hinv.seed_seen with h | h
            · exact Or.inl h
            · rcases List.mem_cons.mp h with h | h
              · exact Or.inl (h ▸ hm)
              · exact Or.inr h
          · intro f hf b hcr
            rcases hinv.closed f hf b hcr with h | h
            · exact Or.inl h
            · rcases List.mem_cons.mp h with h | h
              · exact Or.inl (h ▸ hm)
              · exact Or.inr h
        · simp only [List.length_cons] at hbound
          omega
      · have hun : (fi fh).is_external = false := by simpa using hm
        have hstep : flood_fill t (fuel + 1) (fh :: q) fi =
            flood_fill t fuel (q ++ pushed t fh) (set_external fi fh true) := by
          simp [flood_fill, hun]
        have hfh : fh ∈ t.all_faces := hinv.queue_faces fh (List.mem_cons_self _ _)
        have hreach : Relation.ReflTransGen (crosses t) t.infinite_face fh :=
          hinv.queue_reach fh (List.mem_cons_self _ _)
        rw [hstep]
        apply ih
        · refine ⟨?_, ?_, ?_, ?_, ?_⟩
          · intro f hf
            rw [set_external_apply] at hf
            by_cases h : f = fh
            · exact h ▸ hreach
            · rw [if_neg h] at hf; exact hinv.marked_reach f hf
          · intro x hx
            rcases List.mem_append.mp hx with h | h
            · exact hinv.queue_reach x (List.mem_cons_of_mem _ h)
            · exact Relation.ReflTransGen.tail hreach ((mem_pushed t fh x).mp h)
          · rw [set_external_apply]
            by_cases h : t.infinite_face = fh
            · left; simp [h]
            · rw [if_neg h]
              rcases hinv.seed_seen with h1 | h1
              · exact Or.inl h1
              · rcases List.mem_cons.mp h1 with h2 | h2
                · exact absurd h2 h
                · exact Or.inr (List.mem_append_left _ h2)
          · intro f hf b hcr
            rw [set_external_apply] at hf ⊢
            by_cases hbf : b = fh
            · left; simp [hbf]
            · rw [if_neg hbf]
              by_cases h : f = fh
              · subst h
                exact Or.inr (List.mem_append_right _ ((mem_pushed t f b).mpr hcr))
              · rw [if_neg h] at hf
                rcases hinv.closed f hf b hcr with h1 | h1
                · exact Or.inl h1
                · rcases List.mem_cons.mp h1 with h2 | h2
                  · exact absurd h2 hbf
                  · exact Or.inr (List.mem_append_left _ h2)
          · intro x hx
            rcases List.mem_append.mp hx with h | h
            · exact hinv.queue_faces x (List.mem_cons_of_mem _ h)
            · obtain ⟨i, _, rfl⟩ := (mem_pushed t fh x).mp h
              exact hclosed fh hfh i
        · have h1 := unmarked_set_external t fi fh hfh hun
          have h2 := pushed_length_le t fh
          simp only [List.length_cons, List.length_append] at hbound ⊢
          omega

theorem reset_all_unmarked (l : List Nat) :
    ∀ (fi : Nat → Face_info), (∀ f, (fi f).is_external = false) →
      ∀ f, ((l.foldl (fun fi fit => set_external fi fit false) fi) f).is_external = false := by
  induction l with
  | nil => intro fi h f; simpa using h f
  | cons a l ih =>
    intro fi h f
    rw [List.foldl_cons]
    apply ih
    intro x
    rw [set_external_apply]
    by_cases hx : x = a
    · simp [hx]
    · simp [hx, h x]

/-- C6: in a triangulation whose faces are closed under `neighbor` and contain
the seed `infinite_vertex()->face()`, the region classifier returns, and a face
has `is_external = true` afterwards if and only if it can be reached from the
seed by a (possibly empty) chain of neighbor steps across edges that are not
constrained; every other face has `is_external = false`. -/
theorem region_classifier_reachable (t : Tds) (hseed : t.infinite_face ∈ t.all_faces)
    (hclosed : ∀ f ∈ t.all_faces, ∀ i, t.neighbor f i ∈ t.all_faces) :
    ∃ fi, region_classifier t = some fi ∧
      ∀ f, (fi f).is_external = true ↔
        Relation.ReflTransGen (crosses t) t.infinite_face f := by
  have hreset := reset_all_unmarked t.all_faces (fun _ => ⟨fun _ => none, false⟩)
    (fun _ => rfl)
  have hinit : FloodInv t [t.infinite_face]
      (t.all_faces.foldl (fun fi fit => set_external fi fit false)
        fun _ => ⟨fun _ => none, false⟩) := by
    refine ⟨?_, ?_, Or.inr (List.mem_singleton_self _), ?_, ?_⟩
    · intro f hf; rw [hreset f] at hf; cases hf
    · intro q hq; rw [List.mem_singleton.mp hq]
    · intro f hf; rw [hreset f] at hf; cases hf
    · intro q hq; rw [List.mem_singleton.mp hq]; exact hseed
  have hcard : (unmarked t (t.all_faces.foldl (fun fi fit => set_external fi fit false)
        fun _ => ⟨fun _ => none, false⟩)).card ≤ t.all_faces.length := by
    unfold unmarked
    exact (Finset.card_filter_le _ _).trans (List.toFinset_card_le _)
  obtain ⟨fi, hrun, hfin⟩ := flood_fill_inv t hclosed (1 + 3 * t.all_faces.length)
    [t.infinite_face] _ hinit (by simp only [List.length_singleton]; omega)
  refine ⟨fi, hrun, fun f => ⟨hfin.marked_reach f, ?_⟩⟩
  intro hr
  induction hr with
  | refl =>
    rcases hfin.seed_seen with h | h
    · exact h
    · cases h
  | tail _ hstep ih =>
    rcases hfin.closed _ ih _ hstep with h | h
    · exact h
    · cases h

/-- C6 applied to the triangulation of the unit square. -/
theorem region_classifier_reachable_witness :
    ∃ fi, region_classifier (square_tds false) = some fi ∧
      ∀ f, (fi f).is_external = true ↔
        Relation.ReflTransGen (crosses (square_tds false)) (square_tds false).infinite_face f :=
  region_classifier_reachable (square_tds false) (by decide) (by decide)

/-! ## Planar triangulator -/

/-- Two points have the same projection exactly when their difference is
parallel to the normal. -/
theorem project_eq_iff (n : Vector_3) (p q : Point_3) :
    project n p = project n q ↔ cross_product (p.sub q) n = Point_3.zero := by
  unfold project cross_product Point_3.sub Point_3.zero
  simp only [Point_3.mk.injEq]
  constructor
  · rintro ⟨h1, h2, h3⟩
    exact ⟨by linear_combination h1, by linear_combination h2, by linear_combination h3⟩
  · rintro ⟨h1, h2, h3⟩
    exact ⟨by linear_combination h1, by linear_combination h2, by linear_combination h3⟩

theorem insert_new (c : CDT) (p : Point_3)
    (hp : project c.normal p ∉ c.points.map (project c.normal)) :
    c.insert p = (c.points.length, { c with points := c.points ++ [p] }) := by
  unfold CDT.insert
  rw [List.indexOf_eq_length.mpr hp, List.length_map, if_neg (Nat.lt_irrefl _)]

/-- One iteration of the walk at a position that projects onto no point
inserted before, once `previous` and `first` are set. -/
theorem boundary_walk_step (vpmap : vertex_descriptor → Point_3) (g : PM)
    (start : halfedge_descriptor) (fuel : Nat) (w : Walk) (a b : Nat)
    (hprev : w.previous = some a) (ha : a + 1 = w.cdt.points.length)
    (hfirst : w.first = some b)
    (hp : project w.cdt.normal (vpmap (g.target w.h)) ∉
      w.cdt.points.map (project w.cdt.normal)) :
    boundary_walk vpmap g start (fuel + 1) w =
      if g.next w.h ≠ start then
        boundary_walk vpmap g start fuel
          ⟨⟨w.cdt.normal, w.cdt.points ++ [vpmap (g.target w.h)],
            Function.update w.cdt.info (a + 1) (some w.h),
            w.cdt.constraints ++ [(a, a + 1)]⟩, g.next w.h, some (a + 1), some b⟩
      else some
          ⟨⟨w.cdt.normal, w.cdt.points ++ [vpmap (g.target w.h)],
            Function.update w.cdt.info (a + 1) (some w.h),
            w.cdt.constraints ++ [(a, a + 1)]⟩, g.next w.h, some (a + 1), some b⟩ := by
  have hne : a ≠ w.cdt.points.length := by omega
  rw [boundary_walk]
  simp only [insert_new _ _ hp, hprev, hfirst, CDT.set_info, CDT.insert_constraint,
    ← ha, if_pos hne]
  simp

theorem boundary_walk_distinct (vpmap : vertex_descriptor → Point_3) (g : PM)
    (start : halfedge_descriptor) :
    ∀ (fuel : Nat) (w : Walk) (hs : List halfedge_descriptor) (a b : Nat),
      cycle_from g start fuel w.h = some hs →
      w.previous = some a → a + 1 = w.cdt.points.length → w.first = some b →
      (∀ h ∈ hs, project w.cdt.normal (vpmap (g.target h)) ∉
        w.cdt.points.map (project w.cdt.normal)) →
      (hs.map fun h => project w.cdt.normal (vpmap (g.target h))).Nodup →
      ∃ w1, boundary_walk vpmap g start fuel w = some w1 ∧
        w1.cdt.points = w.cdt.points ++ hs.map (fun h => vpmap (g.target h)) ∧
        w1.cdt.constraints =
          w.cdt.constraints ++ (List.range hs.length).map (fun i => (a + i, a + i + 1)) ∧
        w1.previous = some (a + hs.length) ∧ w1.first = some b ∧ w1.h = start ∧
        w1.cdt.normal = w.cdt.normal := by
  intro fuel
  induction fuel with
  | zero => intro w hs a b hc; simp [cycle_from] at hc
  | succ fuel ih =>
    intro w hs a b hc hprev ha hfirst hnew hnd
    unfold cycle_from at hc
    by_cases hnext : g.next w.h = start
    · rw [if_pos hnext] at hc
      obtain rfl : [w.h] = hs := by simpa using hc
      have hp := hnew w.h (List.mem_singleton_self _)
      rw [boundary_walk_step vpmap g start fuel w a b hprev ha hfirst hp,
        if_neg (not_not.mpr hnext)]
      exact ⟨_, rfl, by simp, by simp [List.range_succ], by simp, rfl, hnext, rfl⟩
    · rw [if_neg hnext] at hc
      cases hrec : cycle_from g start fuel (g.next w.h) with
      | none => simp [hrec] at hc
      | some hs1 =>
        rw [hrec] at hc
        obtain rfl : w.h :: hs1 = hs := by simpa using hc
        have hp := hnew w.h (List.mem_cons_self _ _)
        rw [boundary_walk_step vpmap g start fuel w a b hprev ha hfirst hp, if_pos hnext]
        rw [List.map_cons, List.nodup_cons] at hnd
        obtain ⟨w1, hrun, e1, e2, e3, e4, e5, e6⟩ := ih
          ⟨⟨w.cdt.normal, w.cdt.points ++ [vpmap (g.target w.h)],
            Function.update w.cdt.info (a + 1) (some w.h),
            w.cdt.constraints ++ [(a, a + 1)]⟩, g.next w.h, some (a + 1), some b⟩
          hs1 (a + 1) b hrec rfl (by simp [← ha]) rfl
          (by
            intro h hh
            simp only [List.map_append, List.map_cons, List.map_nil, List.mem_append,
              List.mem_singleton, not_or]
            refine ⟨hnew h (List.mem_cons_of_mem _ hh), ?_⟩
            intro heq
            exact hnd.1 (heq ▸ List.mem_map_of_mem
              (fun h => project w.cdt.normal (vpmap (g.target h))) hh))
          hnd.2
        refine ⟨w1, hrun, ?_, ?_, ?_, e4, e5, e6⟩
        · rw [e1]; simp
        · rw [e2, List.length_cons, List.range_succ_eq_map, List.map_cons, List.map_map]
          simp only [List.append_assoc, List.singleton_append, Nat.add_zero]
          congr 2
          apply List.map_congr_left
          intro i _
          simp only [Function.comp_apply, Nat.succ_eq_add_one]
          congr 1 <;> omega
        · rw [e3, List.length_cons]; congr 1; omega

/-- The first iteration of the walk: `previous` and `first` are not set yet and
no constraint is inserted. -/
theorem boundary_walk_first (vpmap : vertex_descriptor → Point_3) (g : PM)
    (start : halfedge_descriptor) (fuel : Nat) (normal : Vector_3) :
    boundary_walk vpmap g start (fuel + 1)
        ⟨⟨normal, [], fun _ => none, []⟩, start, none, none⟩ =
      if g.next start ≠ start then
        boundary_walk vpmap g start fuel
          ⟨⟨normal, [vpmap (g.target start)],
            Function.update (fun _ => none) 0 (some start), []⟩,
            g.next start, some 0, some 0⟩
      else some
          ⟨⟨normal, [vpmap (g.target start)],
            Function.update (fun _ => none) 0 (some start), []⟩,
            g.next start, some 0, some 0⟩ := by
  rw [boundary_walk]
  simp [CDT.insert, CDT.set_info]

theorem cyclic_pairs_succ (n : Nat) :
    (List.range n).map (fun i => (0 + i, 0 + i + 1)) ++ [(0 + n, 0)] =
      (List.range (n + 1)).map (fun i => (i, (i + 1) % (n + 1))) := by
  rw [List.range_succ, List.map_append]
  congr 1
  · apply List.map_congr_left
    intro i hi
    have : i < n := List.mem_range.mp hi
    simp only [Nat.zero_add]
    rw [Nat.mod_eq_of_lt (by omega)]
  · simp

/-- C7 (amended): for a face whose boundary cycle from `halfedge(f)` is
`h0, ..., h(n-1)` and whose target positions have pairwise distinct projections
along the normal, the planar triangulator returns; the triangulation vertices
are `v0, ..., v(n-1)` in the order of the cycle (vertex `i` is the one returned
for the position of `target(hi)`), and the `insert_constraint` calls are
exactly `(v0,v1), ..., (v(n-2),v(n-1)), (v(n-1),v0)`, `n` calls in cyclic order
and no other. -/
theorem planar_triangulator_constraints (vpmap : vertex_descriptor → Point_3) (g : PM)
    (f : face_descriptor) (normal : Vector_3) (hs : List halfedge_descriptor)
    (hcyc : halfedges_around_face (g.halfedge f) g = some hs)
    (hnd : (hs.map fun h => project normal (vpmap (g.target h))).Nodup) :
    ∃ w, planar_triangulator vpmap g f normal = .ok w ∧
      w.cdt.points = hs.map (fun h => vpmap (g.target h)) ∧
      w.cdt.constraints = (List.range hs.length).map (fun i => (i, (i + 1) % hs.length)) ∧
      w.cdt.constraints.length = hs.length ∧ w.h = g.halfedge f := by
  unfold halfedges_around_face at hcyc
  cases hfuel : g.num_halfedges with
  | zero => rw [hfuel] at hcyc; simp [cycle_from] at hcyc
  | succ fuel =>
    rw [hfuel] at hcyc
    unfold cycle_from at hcyc
    unfold planar_triangulator
    rw [hfuel, boundary_walk_first]
    by_cases hnext : g.next (g.halfedge f) = g.halfedge f
    · rw [if_pos hnext] at hcyc
      obtain rfl : [g.halfedge f] = hs := by simpa using hcyc
      rw [if_neg (not_not.mpr hnext)]
      refine ⟨_, rfl, by simp [CDT.insert_constraint], ?_, ?_, hnext⟩
      · simp [CDT.insert_constraint, List.range_succ]
      · simp [CDT.insert_constraint]
    · rw [if_neg hnext] at hcyc
      cases hrec : cycle_from g (g.halfedge f) fuel (g.next (g.halfedge f)) with
      | none => simp [hrec] at hcyc
      | some hs1 =>
        rw [hrec] at hcyc
        obtain rfl : g.halfedge f :: hs1 = hs := by simpa using hcyc
        rw [if_pos hnext]
        rw [List.map_cons, List.nodup_cons] at hnd
        obtain ⟨w1, hrun, e1, e2, e3, e4, e5, _⟩ := boundary_walk_distinct vpmap g
          (g.halfedge f) fuel
          ⟨⟨normal, [vpmap (g.target (g.halfedge f))],
            Function.update (fun _ => none) 0 (some (g.halfedge f)), []⟩,
            g.next (g.halfedge f), some 0, some 0⟩
          hs1 0 0 hrec rfl rfl rfl
          (by
            intro h hh
            simp only [List.map_cons, List.map_nil, List.mem_singleton]
            intro heq
            exact hnd.1 (heq ▸ List.mem_map_of_mem
              (fun h => project normal (vpmap (g.target h))) hh))
          hnd.2
        rw [hrun]
        simp only [e3, e4]
        refine ⟨_, rfl, ?_, ?_, ?_, e5⟩
        · simp [CDT.insert_constraint, e1]
        · simp only [CDT.insert_constraint, e2, List.nil_append, List.length_cons]
          exact cyclic_pairs_succ hs1.length
        · simp [CDT.insert_constraint, e2]

/-- C7, the claim as stated fails: the six target positions of the face of
`fin_hexagon` are pairwise distinct, but along the estimated normal `(0,0,2)`
the positions of vertices `1` and `2` project alike, and so do those of
vertices `4` and `5`; the walk gets 4 triangulation vertices and calls
`insert_constraint` 4 times, not 6. -/
theorem planar_triangulator_fin_hexagon :
    facets fin_hexagon = [0] ∧
    halfedges_around_face (fin_hexagon.halfedge 0) fin_hexagon =
      some [0, 2, 4, 6, 8, 10] ∧
    ([0, 2, 4, 6, 8, 10].map fun h => fin_hexagon.point (fin_hexagon.target h)).Nodup ∧
    (compute_face_normal 0 fin_hexagon).toOption = some ⟨0, 0, 2⟩ ∧
    (planar_triangulator fin_hexagon.point fin_hexagon 0 ⟨0, 0, 2⟩).toOption.map
        (fun w => (w.cdt.points.length, w.cdt.constraints)) =
      some (4, [(0, 1), (1, 2), (2, 3), (3, 0)]) := by
  refine ⟨by decide, by decide, by decide, by decide, by decide⟩

/-- C7 applied to the face of the unit square. -/
theorem planar_triangulator_constraints_witness :
    ∃ w, planar_triangulator unit_square.point unit_square 0 ⟨0, 0, 2⟩ = .ok w ∧
      w.cdt.points = [0, 2, 4, 6].map (fun h => unit_square.point (unit_square.target h)) ∧
      w.cdt.constraints =
        (List.range [0, 2, 4, 6].length).map (fun i => (i, (i + 1) % [0, 2, 4, 6].length)) ∧
      w.cdt.constraints.length = [0, 2, 4, 6].length ∧ w.h = unit_square.halfedge 0 :=
  planar_triangulator_constraints unit_square.point unit_square 0 ⟨0, 0, 2⟩ [0, 2, 4, 6]
    (by decide) (by decide)

/-- C8, the failing input: on the face of `pinched_square`, whose last boundary
vertex has the position of the first, the walk inserts the constraints
`(0,1), (1,2), (2,0)` and the closing call is `insert_constraint(0, 0)`. -/
theorem planar_triangulator_self_constraint :
    facets pinched_square = [0] ∧
    (compute_face_normal 0 pinched_square).toOption = some ⟨0, 0, 1⟩ ∧
    (planar_triangulator pinched_square.point pinched_square 0 ⟨0, 0, 1⟩).toOption.map
        (fun w => w.cdt.constraints) = some [(0, 1), (1, 2), (2, 0), (0, 0)] := by
  refine ⟨by decide, by decide, by decide⟩

/-! ## Degenerate faces -/

theorem foldr_add_zero (l : List Vector_3) (hl : ∀ v ∈ l, v = Point_3.zero) :
    l.foldr Point_3.add Point_3.zero = Point_3.zero := by
  induction l with
  | nil => rfl
  | cons a l ih =>
    rw [List.foldr_cons, ih (fun v hv => hl v (List.mem_cons_of_mem _ hv)),
      hl a (List.mem_cons_self _ _)]
    rfl

/-- No normal can be estimated for collinear points. -/
theorem sum_normals_collinear (pts : List Point_3) (hcol : collinear pts) :
    sum_normals pts = Point_3.zero := by
  cases pts with
  | nil => rfl
  | cons p0 rest =>
    unfold sum_normals
    apply foldr_add_zero
    intro v hv
    obtain ⟨ab, hab, rfl⟩ := List.mem_map.mp hv
    have hmem := List.of_mem_zip (a := ab.1) (b := ab.2) hab
    exact hcol p0 (List.mem_cons_self _ _) ab.1 (List.mem_cons_of_mem _ hmem.1) ab.2
      (List.mem_cons_of_mem _ (List.mem_of_mem_tail hmem.2))

theorem triangulate_loop_cons (engine : Engine) (vpmap : vertex_descriptor → Point_3)
    (f : face_descriptor) (rest : List face_descriptor) (s : State) :
    triangulate_loop engine vpmap (f :: rest) s =
      match process_face engine vpmap f s with
      | .error err => .error err
      | .ok s1 => triangulate_loop engine vpmap rest s1 := rfl

theorem triangulate_loop_append (engine : Engine) (vpmap : vertex_descriptor → Point_3)
    (pre rest : List face_descriptor) :
    ∀ (s s1 : State), triangulate_loop engine vpmap pre s = .ok s1 →
      triangulate_loop engine vpmap (pre ++ rest) s = triangulate_loop engine vpmap rest s1 := by
  induction pre with
  | nil =>
    intro s s1 h
    simp only [triangulate_loop, Except.ok.injEq] at h
    rw [h, List.nil_append]
  | cons f pre ih =>
    intro s s1 h
    rw [List.cons_append, triangulate_loop_cons]
    rw [triangulate_loop_cons] at h
    cases hp : process_face engine vpmap f s with
    | error err => rw [hp] at h; cases h
    | ok s2 =>
      rw [hp] at h
      exact ih s2 s1 h

/-- C9: when the worklist reaches a face whose boundary vertices are all
collinear, `triangulate_faces` fails with `DegenerateFaceError`; the mesh and
the record of calls are the ones left by the faces processed before, so no
`make_hole`, `add_edge`, `set_target`, `set_next` or `fill_hole` is performed
for that face. -/
theorem triangulate_faces_degenerate (engine : Engine)
    (vpmap : vertex_descriptor → Point_3) (g : PM) (pre rest : List face_descriptor)
    (f : face_descriptor) (s : State) (pts : List Point_3)
    (hw : facets g = pre ++ f :: rest)
    (hpre : triangulate_loop engine vpmap pre ⟨g, []⟩ = .ok s)
    (hpts : face_points f s.pmesh = some pts) (hcol : collinear pts) :
    process_face engine vpmap f s = .error (.DegenerateFaceError, s) ∧
    triangulate_faces engine vpmap g = .error (.DegenerateFaceError, s) := by
  have hface : process_face engine vpmap f s = .error (.DegenerateFaceError, s) := by
    unfold process_face prepare compute_face_normal
    rw [hpts]
    simp only [sum_normals_collinear pts hcol, if_true]
    rfl
  refine ⟨hface, ?_⟩
  unfold triangulate_faces
  rw [hw, triangulate_loop_append engine vpmap pre (f :: rest) _ s hpre,
    triangulate_loop_cons, hface]

/-- C9 applied to the square flattened onto a line. -/
theorem triangulate_faces_degenerate_witness :
    process_face (square_engine false) flat_square.point 0 ⟨flat_square, []⟩ =
        .error (.DegenerateFaceError, ⟨flat_square, []⟩) ∧
    triangulate_faces (square_engine false) flat_square.point flat_square =
        .error (.DegenerateFaceError, ⟨flat_square, []⟩) :=
  triangulate_faces_degenerate (square_engine false) flat_square.point flat_square [] []
    0 ⟨flat_square, []⟩ [⟨0, 0, 0⟩, ⟨1, 0, 0⟩, ⟨2, 0, 0⟩, ⟨3, 0, 0⟩]
    (by decide) rfl (by decide) (by unfold collinear; decide)

/-! ## The half-edge variable of the walk in the stitcher -/

/-- When the walk returns, its half-edge variable `h` is back at `start`. -/
theorem boundary_walk_h (vpmap : vertex_descriptor → Point_3) (g : PM)
    (start : halfedge_descriptor) :
    ∀ (fuel : Nat) (w w1 : Walk), boundary_walk vpmap g start fuel w = some w1 →
      w1.h = start := by
  intro fuel
  induction fuel with
  | zero => intro w w1 h; simp [boundary_walk] at h
  | succ fuel ih =>
    intro w w1 h
    rw [boundary_walk] at h
    simp only at h
    split at h
    · exact ih _ _ h
    · rename_i hstop
      simp only [Option.some.injEq] at h
      rw [← h]
      simpa using hstop

/-- The variable `h` that the stitcher reads is `halfedge(f)`. -/
theorem planar_triangulator_h (vpmap : vertex_descriptor → Point_3) (g : PM)
    (f : face_descriptor) (normal : Vector_3) (w : Walk)
    (hok : planar_triangulator vpmap g f normal = .ok w) : w.h = g.halfedge f := by
  unfold planar_triangulator at hok
  cases hrun : boundary_walk vpmap g (g.halfedge f) g.num_halfedges
      ⟨⟨normal, [], fun _ => none, []⟩, g.halfedge f, none, none⟩ with
  | none => rw [hrun] at hok; cases hok
  | some w0 =>
    rw [hrun] at hok
    have h0 := boundary_walk_h vpmap g _ _ _ _ hrun
    cases hp : w0.previous with
    | none => simp [hp] at hok
    | some a =>
      cases hf : w0.first with
      | none => simp [hp, hf] at hok
      | some b =>
        simp only [hp, hf, Except.ok.injEq] at hok
        rw [← hok]
        exact h0

/-- What the branch for a strictly internal edge does when it is taken: one
`add_edge`, then `set_target` on `h` and on the opposite of `h`; the slot on the
far side of the edge receives the opposite of `h`, and `h` is not a half-edge
of the new edge when it is a half-edge of the mesh. -/
theorem internal_edge_writes (t : Tds) (c : CDT) (h : halfedge_descriptor) (s s1 : Stitch)
    (eit : Nat × Fin 3)
    (hbranch : (!((s.finfo eit.1).is_external
        && (s.finfo (t.neighbor eit.1 eit.2)).is_external)
      && !t.is_constrained eit.1 eit.2) = true)
    (hold : h < s.st.pmesh.num_halfedges)
    (hok : internal_edge t c h s eit = .ok s1) :
    (∃ va vb, s1.st.trace = s.st.trace ++
        [Call.add_edge, Call.set_target h va, Call.set_target (s.st.pmesh.opposite h) vb]) ∧
    (s1.finfo (t.neighbor eit.1 eit.2)).e (t.index (t.neighbor eit.1 eit.2) eit.1) =
      some (s.st.pmesh.opposite h) ∧
    h ≠ (add_edge s.st.pmesh).1 ∧ h ≠ (add_edge s.st.pmesh).1 + 1 := by
  have hopp : (add_edge s.st.pmesh).2.opposite h = s.st.pmesh.opposite h := by
    have h1 : h ≠ s.st.pmesh.num_halfedges := Nat.ne_of_lt hold
    have h2 : h ≠ s.st.pmesh.num_halfedges + 1 := Nat.ne_of_lt (Nat.lt_succ_of_lt hold)
    simp [add_edge, Function.update_noteq h1, Function.update_noteq h2]
  unfold internal_edge at hok
  simp only [hbranch, if_true] at hok
  cases ha : c.info (t.vertex eit.1 (cw eit.2)) with
  | none => simp [ha] at hok
  | some x =>
    cases hb : c.info (t.vertex eit.1 (ccw eit.2)) with
    | none => simp [ha, hb] at hok
    | some y =>
      simp only [ha, hb, Except.ok.injEq] at hok
      rw [← hok]
      refine ⟨⟨(add_edge s.st.pmesh).2.target x,
        (set_target h ((add_edge s.st.pmesh).2.target x) (add_edge s.st.pmesh).2).target y,
        ?_⟩, ?_, ?_, ?_⟩
      · simp [set_target, hopp]
      · simp [set_e, hopp]
      · exact Nat.ne_of_lt hold
      · exact Nat.ne_of_lt (Nat.lt_succ_of_lt hold)

/-- No mesh edge is allocated for a constrained edge: the branch for a strictly
internal edge leaves the mesh, the record of calls and the slots as they are. -/
theorem internal_edge_constrained (t : Tds) (c : CDT) (h : halfedge_descriptor)
    (s : Stitch) (eit : Nat × Fin 3) (hc : t.is_constrained eit.1 eit.2 = true) :
    internal_edge t c h s eit = .ok s := by
  simp [internal_edge, hc]

/-- The triangulation of the unit square is consistent: neighbors point back at
each other, share the two vertices of their common edge in opposite order, and
agree on whether it is constrained; the finite edges are its five edges. -/
theorem square_tds_consistent (side : Bool) :
    ∀ f ∈ (square_tds side).all_faces, ∀ i : Fin 3,
      (square_tds side).neighbor ((square_tds side).neighbor f i)
          ((square_tds side).index ((square_tds side).neighbor f i) f) = f ∧
      (square_tds side).vertex ((square_tds side).neighbor f i)
          (ccw ((square_tds side).index ((square_tds side).neighbor f i) f)) =
        (square_tds side).vertex f (cw i) ∧
      (square_tds side).vertex ((square_tds side).neighbor f i)
          (cw ((square_tds side).index ((square_tds side).neighbor f i) f)) =
        (square_tds side).vertex f (ccw i) ∧
      (square_tds side).is_constrained ((square_tds side).neighbor f i)
          ((square_tds side).index ((square_tds side).neighbor f i) f) =
        (square_tds side).is_constrained f i := by
  cases side <;> decide

/-! ## The stitcher on the unit square -/

/-- C1, the failing input: the face of the unit square has the boundary cycle
`0, 2, 4, 6`, and `add_edge` allocates half-edges `8` and `9` for the diagonal.
Whichever face the diagonal is reported from, both `set_target` calls of the
run are applied to half-edge `0 = halfedge(f)` and to its opposite `1`, none to
`8` or `9`; when the diagonal is reported from face `1` the target of the
boundary half-edge `0` changes from vertex `0` to vertex `2`, and the target of
its opposite changes from vertex `3` to vertex `2` in both cases. -/
theorem triangulate_faces_set_target_boundary :
    facets unit_square = [0] ∧
    halfedges_around_face (unit_square.halfedge 0) unit_square = some [0, 2, 4, 6] ∧
    unit_square.opposite 0 = 1 ∧ (add_edge unit_square).1 = 8 ∧
    [0, 1].map unit_square.target = [0, 3] ∧
    (trace_of (triangulate_faces (square_engine false) unit_square.point unit_square)).map
        (List.filter fun c => c matches Call.set_target _ _) =
      some [Call.set_target 0 0, Call.set_target 1 2] ∧
    (trace_of (triangulate_faces (square_engine true) unit_square.point unit_square)).map
        (List.filter fun c => c matches Call.set_target _ _) =
      some [Call.set_target 0 2, Call.set_target 1 2] ∧
    mesh_of (fun g => [0, 1].map g.target)
        (triangulate_faces (square_engine false) unit_square.point unit_square) =
      some [0, 2] ∧
    mesh_of (fun g => [0, 1].map g.target)
        (triangulate_faces (square_engine true) unit_square.point unit_square) =
      some [2, 2] := by
  refine ⟨by decide, by decide, by decide, by decide, by decide, by decide!,
    by decide!, by decide!, by decide!⟩

/-- C2, the failing input: on the unit square the only diagonal is the edge
`(face 0, index 1) = (face 1, index 2)`, and `add_edge` allocates half-edges
`8` and `9` for it (the arena grows from 8 to 10 half-edges).  After the loop
over the finite edges the two slots of the diagonal hold half-edge
`0 = halfedge(f)` and its opposite `1`, not `8` and `9`: slots `e[1]` of face
`0` and `e[2]` of face `1` are `0` and `1`, or `1` and `0` when the diagonal is
reported from face `1`. -/
theorem process_edges_diagonal_slots :
    (add_edge unit_square).1 = 8 ∧ unit_square.opposite 0 = 1 ∧
    (process_edges (square_engine false) unit_square.point 0 ⟨unit_square, []⟩).toOption.map
        (fun s => (slots_of [0, 1] s, s.st.pmesh.num_halfedges)) =
      some ([[some 4, some 0, some 2], [some 6, some 0, some 1]], 10) ∧
    (process_edges (square_engine true) unit_square.point 0 ⟨unit_square, []⟩).toOption.map
        (fun s => (slots_of [0, 1] s, s.st.pmesh.num_halfedges)) =
      some ([[some 4, some 1, some 2], [some 6, some 0, some 0]], 10) := by
  refine ⟨by decide, by decide, by decide!, by decide!⟩

/-- C3, the failing input: on the unit square the run calls `fill_hole` twice
and `add_edge` once, but the two faces it leaves (faces `1` and `2`) are not
two triangles, and the half-edges `8` and `9` of the new edge bound no face.
When the diagonal is reported from face `0`, following `next` from the
half-edge of face `1` never comes back to it and face `2` has the cycle
`6, 0, 1`; when it is reported from face `1`, face `1` has three sides and
face `2` has the two sides `6, 0`. -/
theorem triangulate_faces_square_faces :
    (trace_of (triangulate_faces (square_engine false) unit_square.point unit_square)).map
        (fun tr => ((tr.filter fun c => c matches Call.fill_hole _).length,
          (tr.filter fun c => c matches Call.add_edge).length)) = some (2, 1) ∧
    (trace_of (triangulate_faces (square_engine true) unit_square.point unit_square)).map
        (fun tr => ((tr.filter fun c => c matches Call.fill_hole _).length,
          (tr.filter fun c => c matches Call.add_edge).length)) = some (2, 1) ∧
    mesh_of (fun g => g.faces)
        (triangulate_faces (square_engine false) unit_square.point unit_square) =
      some [1, 2] ∧
    mesh_of (fun g => [8, 9].map g.face)
        (triangulate_faces (square_engine false) unit_square.point unit_square) =
      some [none, none] ∧
    mesh_of (fun g => g.faces.map fun f => halfedges_around_face (g.halfedge f) g)
        (triangulate_faces (square_engine false) unit_square.point unit_square) =
      some [none, some [6, 0, 1]] ∧
    mesh_of (fun g => g.faces)
        (triangulate_faces (square_engine true) unit_square.point unit_square) =
      some [1, 2] ∧
    mesh_of (fun g => [8, 9].map g.face)
        (triangulate_faces (square_engine true) unit_square.point unit_square) =
      some [none, none] ∧
    mesh_of (fun g => g.faces.map fun f => halfedges_around_face (g.halfedge f) g)
        (triangulate_faces (square_engine true) unit_square.point unit_square) =
      some [some [4, 1, 2], some [6, 0]] := by
  refine ⟨by decide!, by decide!, by decide!, by decide!, by decide!, by decide!,
    by decide!, by decide!⟩

/-- C10, the failing input: on the unit square both finite faces are interior.
When the diagonal is reported from face `0`, half-edge `0` is recorded in slot
`e[1]` of face `0` and in slot `e[1]` of face `1`, and in the resulting mesh
`next(0) = 1`, not `2 = e[2]` of face `0`: the links of the first triangle are
overwritten by the second.  When the diagonal is reported from face `1`, the
slots of face `1` are `6, 0, 0`, not pairwise distinct, and in the resulting
mesh `next(6) = 0` and `next(0) = 6`. -/
theorem triangulate_faces_square_links :
    ((region_classifier (square_tds false)).map fun fi =>
        (square_tds false).finite_faces.map fun f => (fi f).is_external) =
      some [false, false] ∧
    (process_edges (square_engine false) unit_square.point 0 ⟨unit_square, []⟩).toOption.map
        (slots_of [0, 1]) =
      some [[some 4, some 0, some 2], [some 6, some 0, some 1]] ∧
    mesh_of (fun g => [4, 0, 2].map g.next)
        (triangulate_faces (square_engine false) unit_square.point unit_square) =
      some [0, 1, 4] ∧
    (process_edges (square_engine true) unit_square.point 0 ⟨unit_square, []⟩).toOption.map
        (slots_of [0, 1]) =
      some [[some 4, some 1, some 2], [some 6, some 0, some 0]] ∧
    mesh_of (fun g => [6, 0, 0].map g.next)
        (triangulate_faces (square_engine true) unit_square.point unit_square) =
      some [0, 6, 6] := by
  refine ⟨by decide!, by decide!, by decide!, by decide!, by decide!⟩

/-! ## Cost of the region classifier -/

/-- The loop with the record computes the flags of `flood_fill`. -/
theorem flood_fill_log_fi (t : Tds) :
    ∀ (fuel : Nat) (queue : List Nat) (l : Flood_log),
      (flood_fill_log t fuel queue l).map (fun r => r.fi) = flood_fill t fuel queue l.fi := by
  intro fuel
  induction fuel with
  | zero =>
    intro queue l
    cases queue <;> simp [flood_fill_log, flood_fill]
  | succ fuel ih =>
    intro queue l
    cases queue with
    | nil => simp [flood_fill_log, flood_fill]
    | cons fh q =>
      by_cases hm : (l.fi fh).is_external = true
      · simp only [flood_fill_log, flood_fill, hm, if_true]
        exact ih q l
      · have hun : (l.fi fh).is_external = false := by simpa using hm
        simp only [flood_fill_log, flood_fill, hun, Bool.false_eq_true, if_false]
        exact ih _ _

/-- The loop with the record returns within the fuel and keeps `LogInv`. -/
theorem flood_fill_log_inv (t : Tds)
    (hclosed : ∀ f ∈ t.all_faces, ∀ i, t.neighbor f i ∈ t.all_faces) :
    ∀ (fuel : Nat) (queue : List Nat) (l : Flood_log),
      (∀ q ∈ queue, q ∈ t.all_faces) → LogInv t l →
      queue.length + 3 * (unmarked t l.fi).card ≤ fuel →
      ∃ l1, flood_fill_log t fuel queue l = some l1 ∧ LogInv t l1 := by
  intro fuel
  induction fuel with
  | zero =>
    intro queue l _ hinv hbound
    have hq : queue = [] := List.length_eq_zero.mp (by omega)
    subst hq
    exact ⟨l, by simp [flood_fill_log], hinv⟩
  | succ fuel ih =>
    intro queue l hqueue hinv hbound
    cases queue with
    | nil => exact ⟨l, by simp [flood_fill_log], hinv⟩
    | cons fh q =>
      have hfh : fh ∈ t.all_faces := hqueue fh (List.mem_cons_self _ _)
      by_cases hm : (l.fi fh).is_external = true
      · have hstep : flood_fill_log t (fuel + 1) (fh :: q) l = flood_fill_log t fuel q l := by
          simp [flood_fill_log, hm]
        rw [hstep]
        apply ih q l (fun x hx => hqueue x (List.mem_cons_of_mem _ hx)) hinv
        simp only [List.length_cons] at hbound
        omega
      · have hun : (l.fi fh).is_external = false := by simpa using hm
        have hstep : flood_fill_log t (fuel + 1) (fh :: q) l =
            flood_fill_log t fuel (q ++ pushed t fh)
              ⟨set_external l.fi fh true, l.marked ++ [fh],
                l.pushes + (pushed t fh).length⟩ := by
          simp [flood_fill_log, hun]
        rw [hstep]
        have hnew : fh ∉ l.marked := fun hin => hm (hinv.flagged fh hin)
        apply ih
        · intro x hx
          rcases List.mem_append.mp hx with h | h
          · exact hqueue x (List.mem_cons_of_mem _ h)
          · obtain ⟨i, _, rfl⟩ := (mem_pushed t fh x).mp h
            exact hclosed fh hfh i
        · refine ⟨?_, ?_, ?_, ?_⟩
          · simp only
            rw [List.nodup_append]
            refine ⟨hinv.nodup, List.nodup_singleton _, ?_⟩
            intro a ha hb
            rw [List.mem_singleton] at hb
            exact hnew (hb ▸ ha)
          · intro f hf
            simp only [List.mem_append, List.mem_singleton] at hf
            simp only [set_external_apply]
            by_cases h : f = fh
            · simp [h]
            · rw [if_neg h]
              rcases hf with h1 | h1
              · exact hinv.flagged f h1
              · exact absurd h1 h
          · intro f hf
            simp only [List.mem_append, List.mem_singleton] at hf
            rcases hf with h1 | h1
            · exact hinv.faces f h1
            · exact h1 ▸ hfh
          · have h1 := hinv.pushes_le
            have h2 := pushed_length_le t fh
            simp only [List.length_append, List.length_singleton]
            omega
        · have h1 := unmarked_set_external t l.fi fh hfh hun
          have h2 := pushed_length_le t fh
          simp only [List.length_cons, List.length_append] at hbound ⊢
          omega

/-- C13: in a triangulation with `F` faces, closed under `neighbor` and
containing the seed, the flood fill loop terminates with the flags of the
region classifier; no face is marked exterior twice, the body past the visited
check runs at most `F` times, and at most `1 + 3 * F` faces are pushed on the
queue. -/
theorem region_classifier_log_bounds (t : Tds) (hseed : t.infinite_face ∈ t.all_faces)
    (hclosed : ∀ f ∈ t.all_faces, ∀ i, t.neighbor f i ∈ t.all_faces) :
    ∃ l, region_classifier_log t = some l ∧ region_classifier t = some l.fi ∧
      l.marked.Nodup ∧ l.marked.length ≤ t.all_faces.length ∧
      l.pushes ≤ 1 + 3 * t.all_faces.length := by
  have hcard : (unmarked t (t.all_faces.foldl (fun fi fit => set_external fi fit false)
        fun _ => ⟨fun _ => none, false⟩)).card ≤ t.all_faces.length := by
    unfold unmarked
    exact (Finset.card_filter_le _ _).trans (List.toFinset_card_le _)
  obtain ⟨l, hrun, hinv⟩ := flood_fill_log_inv t hclosed (1 + 3 * t.all_faces.length)
    [t.infinite_face]
    ⟨t.all_faces.foldl (fun fi fit => set_external fi fit false)
      fun _ => ⟨fun _ => none, false⟩, [], 1⟩
    (by intro q hq; rw [List.mem_singleton.mp hq]; exact hseed)
    ⟨List.nodup_nil, by simp, by simp, by simp⟩
    (by simp only [List.length_singleton]; omega)
  have hlen : l.marked.length ≤ t.all_faces.length :=
    (List.subperm_of_subset hinv.nodup hinv.faces).length_le
  refine ⟨l, hrun, ?_, hinv.nodup, hlen, ?_⟩
  · have h := flood_fill_log_fi t (1 + 3 * t.all_faces.length) [t.infinite_face]
      ⟨t.all_faces.foldl (fun fi fit => set_external fi fit false)
        fun _ => ⟨fun _ => none, false⟩, [], 1⟩
    rw [hrun] at h
    unfold region_classifier
    exact h.symm
  · have := hinv.pushes_le
    omega

/-- C13 applied to the triangulation of the unit square, which has 6 faces. -/
theorem region_classifier_log_bounds_witness :
    ∃ l, region_classifier_log (square_tds false) = some l ∧
      region_classifier (square_tds false) = some l.fi ∧
      l.marked.Nodup ∧ l.marked.length ≤ (square_tds false).all_faces.length ∧
      l.pushes ≤ 1 + 3 * (square_tds false).all_faces.length :=
  region_classifier_log_bounds (square_tds false) (by decide) (by decide)

/-! ## Exterior faces in the stitcher -/

/-- The region classifier returns with the invariant of the flood fill on the
empty queue. -/
theorem region_classifier_inv (t : Tds) (hseed : t.infinite_face ∈ t.all_faces)
    (hclosed : ∀ f ∈ t.all_faces, ∀ i, t.neighbor f i ∈ t.all_faces) :
    ∃ fi, region_classifier t = some fi ∧ FloodInv t [] fi := by
  have hreset := reset_all_unmarked t.all_faces (fun _ => ⟨fun _ => none, false⟩)
    (fun _ => rfl)
  have hinit : FloodInv t [t.infinite_face]
      (t.all_faces.foldl (fun fi fit => set_external fi fit false)
        fun _ => ⟨fun _ => none, false⟩) := by
    refine ⟨?_, ?_, Or.inr (List.mem_singleton_self _), ?_, ?_⟩
    · intro f hf; rw [hreset f] at hf; cases hf
    · intro q hq; rw [List.mem_singleton.mp hq]
    · intro f hf; rw [hreset f] at hf; cases hf
    · intro q hq; rw [List.mem_singleton.mp hq]; exact hseed
  have hcard : (unmarked t (t.all_faces.foldl (fun fi fit => set_external fi fit false)
        fun _ => ⟨fun _ => none, false⟩)).card ≤ t.all_faces.length := by
    unfold unmarked
    exact (Finset.card_filter_le _ _).trans (List.toFinset_card_le _)
  exact flood_fill_inv t hclosed (1 + 3 * t.all_faces.length)
    [t.infinite_face] _ hinit (by simp only [List.length_singleton]; omega)

theorem set_e_external (fi : Nat → Face_info) (fh : Nat) (index : Fin 3)
    (v : Option halfedge_descriptor) (F : Nat) :
    (set_e fi fh index v F).is_external = (fi F).is_external := by
  unfold set_e
  by_cases h : F = fh
  · subst h; simp
  · simp [Function.update_noteq h]

theorem set_e_other (fi : Nat → Face_info) (fh : Nat) (index : Fin 3)
    (v : Option halfedge_descriptor) (F : Nat) (h : F ≠ fh) :
    set_e fi fh index v F = fi F := by
  unfold set_e
  simp [Function.update_noteq h]

theorem set_e_slot (fi : Nat → Face_info) (fh : Nat) (index : Fin 3)
    (v : Option halfedge_descriptor) (F : Nat) (i : Fin 3) :
    (set_e fi fh index v F).e i = if F = fh ∧ i = index then v else (fi F).e i := by
  unfold set_e
  by_cases h : F = fh
  · subst h
    by_cases hi : i = index
    · subst hi; simp
    · simp [Function.update_noteq hi, hi]
  · simp [Function.update_noteq h, h]

/-- The face records after the branch for a strictly internal edge. -/
theorem internal_edge_finfo (t : Tds) (c : CDT) (h : halfedge_descriptor) (s s1 : Stitch)
    (eit : Nat × Fin 3) (hok : internal_edge t c h s eit = .ok s1) :
    s1.finfo =
      if (!((s.finfo eit.1).is_external && (s.finfo (t.neighbor eit.1 eit.2)).is_external)
          && !t.is_constrained eit.1 eit.2) = true then
        set_e (set_e s.finfo eit.1 eit.2 (some h)) (t.neighbor eit.1 eit.2)
          (t.index (t.neighbor eit.1 eit.2) eit.1)
          (some ((add_edge s.st.pmesh).2.opposite h))
      else s.finfo := by
  unfold internal_edge at hok
  by_cases hb : (!((s.finfo eit.1).is_external
      && (s.finfo (t.neighbor eit.1 eit.2)).is_external)
      && !t.is_constrained eit.1 eit.2) = true
  · rw [if_pos hb]
    simp only [hb, if_true] at hok
    cases ha : c.info (t.vertex eit.1 (cw eit.2)) with
    | none => simp [ha] at hok
    | some x =>
      cases hy : c.info (t.vertex eit.1 (ccw eit.2)) with
      | none => simp [ha, hy] at hok
      | some y =>
        simp only [ha, hy, Except.ok.injEq] at hok
        rw [← hok]
  · rw [if_neg hb]
    simp only [hb] at hok
    simp only [Bool.false_eq_true, if_false, Except.ok.injEq] at hok
    rw [← hok]

/-- The loop body over the finite edges never changes an exterior flag. -/
theorem stitch_edge_flags (t : Tds) (c : CDT) (h : halfedge_descriptor) (s s1 : Stitch)
    (eit : Nat × Fin 3) (hok : stitch_edge t c h s eit = .ok s1) (F : Nat) :
    (s1.finfo F).is_external = (s.finfo F).is_external := by
  unfold stitch_edge at hok
  cases hi : internal_edge t c h s eit with
  | error err => rw [hi] at hok; cases hok
  | ok s0 =>
    rw [hi] at hok
    simp only [Except.map, Except.ok.injEq] at hok
    have hfi := internal_edge_finfo t c h s s0 eit hi
    have h0 : (s0.finfo F).is_external = (s.finfo F).is_external := by
      rw [hfi]
      split
      · rw [set_e_external, set_e_external]
      · rfl
    rw [← hok, ← h0]
    unfold constrained_edge
    simp only
    split
    · split <;> split <;> simp [set_e_external]
    · rfl

/-- A property kept by every step of a loop that completes holds at its end. -/
theorem foldlM_ok_induction {α β ε : Type} (f : β → α → Except ε β) (P : β → Prop) :
    ∀ (l : List α) (b b1 : β),
      (∀ a ∈ l, ∀ x y, P x → f x a = .ok y → P y) → P b →
      l.foldlM f b = .ok b1 → P b1 := by
  intro l
  induction l with
  | nil =>
    intro b b1 _ hb hrun
    simp only [List.foldlM, pure, Except.pure, Except.ok.injEq] at hrun
    exact hrun ▸ hb
  | cons a l ih =>
    intro b b1 hstep hb hrun
    rw [List.foldlM_cons] at hrun
    cases hf : f b a with
    | error err => rw [hf] at hrun; cases hrun
    | ok y =>
      rw [hf] at hrun
      exact ih y b1 (fun a1 ha1 => hstep a1 (List.mem_cons_of_mem _ ha1))
        (hstep a (List.mem_cons_self _ _) b y hb hf) hrun

/-- A loop whose steps all complete under an invariant completes. -/
theorem foldlM_ok_exists {α β ε : Type} (f : β → α → Except ε β) (P : β → Prop) :
    ∀ (l : List α) (b : β),
      (∀ a ∈ l, ∀ x, P x → ∃ y, f x a = .ok y ∧ P y) → P b →
      ∃ b1, l.foldlM f b = .ok b1 ∧ P b1 := by
  intro l
  induction l with
  | nil =>
    intro b _ hb
    exact ⟨b, rfl, hb⟩
  | cons a l ih =>
    intro b hstep hb
    obtain ⟨y, hy, hPy⟩ := hstep a (List.mem_cons_self _ _) b hb
    obtain ⟨b1, hrun, hP⟩ := ih y (fun a1 ha1 => hstep a1 (List.mem_cons_of_mem _ ha1)) hPy
    refine ⟨b1, ?_, hP⟩
    rw [List.foldlM_cons, hy]
    exact hrun

/-- One step of the loop over the finite edges leaves the record of an exterior
face as it is, when a strictly internal edge has no exterior side. -/
theorem stitch_edge_exterior (t : Tds) (c : CDT) (h : halfedge_descriptor) (s s1 : Stitch)
    (eit : Nat × Fin 3) (hok : stitch_edge t c h s eit = .ok s1)
    (hdiag : (!((s.finfo eit.1).is_external
          && (s.finfo (t.neighbor eit.1 eit.2)).is_external)
        && !t.is_constrained eit.1 eit.2) = true →
      (s.finfo eit.1).is_external = false ∧
        (s.finfo (t.neighbor eit.1 eit.2)).is_external = false)
    (F : Nat) (hF : (s.finfo F).is_external = true) :
    s1.finfo F = s.finfo F := by
  unfold stitch_edge at hok
  cases hi : internal_edge t c h s eit with
  | error err => rw [hi] at hok; cases hok
  | ok s0 =>
    rw [hi] at hok
    simp only [Except.map, Except.ok.injEq] at hok
    have hfi := internal_edge_finfo t c h s s0 eit hi
    have hflag : ∀ G, (s0.finfo G).is_external = (s.finfo G).is_external := by
      intro G
      rw [hfi]
      split
      · rw [set_e_external, set_e_external]
      · rfl
    have h0 : s0.finfo F = s.finfo F := by
      rw [hfi]
      split
      · rename_i hb
        obtain ⟨h1, h2⟩ := hdiag hb
        have hne1 : F ≠ eit.1 := fun e => by rw [e, h1] at hF; cases hF
        have hne2 : F ≠ t.neighbor eit.1 eit.2 := fun e => by rw [e, h2] at hF; cases hF
        rw [set_e_other _ _ _ _ _ hne2, set_e_other _ _ _ _ _ hne1]
      · rfl
    rw [← hok, ← h0]
    unfold constrained_edge
    simp only
    split
    · by_cases h1 : (s0.finfo eit.1).is_external = true
      · simp only [h1, Bool.not_true, Bool.false_eq_true, if_false]
        by_cases h2 : (s0.finfo (t.neighbor eit.1 eit.2)).is_external = true
        · simp [h2]
        · have h2f : (s0.finfo (t.neighbor eit.1 eit.2)).is_external = false := by
            simpa using h2
          have hne2 : F ≠ t.neighbor eit.1 eit.2 := fun e => by
            rw [e, ← hflag, h2f] at hF; cases hF
          simp [h2f, set_e_other _ _ _ _ _ hne2]
      · have h1f : (s0.finfo eit.1).is_external = false := by simpa using h1
        have hne1 : F ≠ eit.1 := fun e => by rw [e, ← hflag, h1f] at hF; cases hF
        simp only [h1f, Bool.not_false, if_true, set_e_external]
        by_cases h2 : (s0.finfo (t.neighbor eit.1 eit.2)).is_external = true
        · simp [h2, set_e_other _ _ _ _ _ hne1]
        · have h2f : (s0.finfo (t.neighbor eit.1 eit.2)).is_external = false := by
            simpa using h2
          have hne2 : F ≠ t.neighbor eit.1 eit.2 := fun e => by
            rw [e, ← hflag, h2f] at hF; cases hF
          simp [h2f, set_e_other _ _ _ _ _ hne2, set_e_other _ _ _ _ _ hne1]
    · rfl

/-- C14: in a triangulation whose faces are closed under `neighbor` and contain
the seed, and in which `neighbor` and `is_constrained` are symmetric across
every edge, after the flood fill two faces adjacent across an unconstrained
edge have the same `is_external` flag; every finite edge that takes the branch
for a strictly internal edge has both incident faces interior; and the loop
over the finite edges leaves the record of every exterior face, its slots
included, as it was. -/
theorem region_classifier_closed (t : Tds) (hseed : t.infinite_face ∈ t.all_faces)
    (hclosed : ∀ f ∈ t.all_faces, ∀ i, t.neighbor f i ∈ t.all_faces)
    (hsym : ∀ f ∈ t.all_faces, ∀ i,
      t.neighbor (t.neighbor f i) (t.index (t.neighbor f i) f) = f ∧
      t.is_constrained (t.neighbor f i) (t.index (t.neighbor f i) f) =
        t.is_constrained f i)
    (hedges : ∀ eit ∈ t.finite_edges, eit.1 ∈ t.all_faces) :
    ∃ fi, region_classifier t = some fi ∧
      (∀ a ∈ t.all_faces, ∀ b, crosses t a b →
        (fi a).is_external = (fi b).is_external) ∧
      (∀ eit ∈ t.finite_edges,
        (!((fi eit.1).is_external && (fi (t.neighbor eit.1 eit.2)).is_external)
          && !t.is_constrained eit.1 eit.2) = true →
        (fi eit.1).is_external = false ∧
          (fi (t.neighbor eit.1 eit.2)).is_external = false) ∧
      (∀ (c : CDT) (h : halfedge_descriptor) (st : State) (s1 : Stitch),
        t.finite_edges.foldlM (stitch_edge t c h) ⟨st, fi⟩ = .ok s1 →
        ∀ F, (fi F).is_external = true → s1.finfo F = fi F) := by
  obtain ⟨fi, hrun, hinv⟩ := region_classifier_inv t hseed hclosed
  have hadj : ∀ a ∈ t.all_faces, ∀ b, crosses t a b →
      (fi a).is_external = (fi b).is_external := by
    intro a ha b hab
    have hba : crosses t b a := by
      obtain ⟨i, hi, rfl⟩ := hab
      obtain ⟨h1, h2⟩ := hsym a ha i
      exact ⟨t.index (t.neighbor a i) a, by rw [h2]; exact hi, h1⟩
    rw [Bool.eq_iff_iff]
    constructor
    · intro h
      rcases hinv.closed a h b hab with h1 | h1
      · exact h1
      · cases h1
    · intro h
      rcases hinv.closed b h a hba with h1 | h1
      · exact h1
      · cases h1
  have hdiag : ∀ eit ∈ t.finite_edges,
      (!((fi eit.1).is_external && (fi (t.neighbor eit.1 eit.2)).is_external)
        && !t.is_constrained eit.1 eit.2) = true →
      (fi eit.1).is_external = false ∧
        (fi (t.neighbor eit.1 eit.2)).is_external = false := by
    intro eit heit hb
    simp only [Bool.and_eq_true, Bool.not_eq_true', Bool.and_eq_false_iff] at hb
    have heq := hadj eit.1 (hedges eit heit) (t.neighbor eit.1 eit.2) ⟨eit.2, hb.2, rfl⟩
    rcases hb.1 with h1 | h1
    · exact ⟨h1, by rw [← heq]; exact h1⟩
    · exact ⟨by rw [heq]; exact h1, h1⟩
  refine ⟨fi, hrun, hadj, hdiag, ?_⟩
  intro c h st s1 hloop F hF
  have key := foldlM_ok_induction (stitch_edge t c h)
    (fun s => (∀ G, (s.finfo G).is_external = (fi G).is_external) ∧
      ∀ G, (fi G).is_external = true → s.finfo G = fi G)
    t.finite_edges ⟨st, fi⟩ s1
    (by
      intro eit heit x y hx hxy
      refine ⟨fun G => ?_, fun G hG => ?_⟩
      · rw [stitch_edge_flags t c h x y eit hxy G]; exact hx.1 G
      · rw [← hx.2 G hG]
        apply stitch_edge_exterior t c h x y eit hxy
        · intro hb
          rw [hx.1, hx.1] at hb ⊢
          exact hdiag eit heit hb
        · rw [hx.1]; exact hG)
    ⟨fun _ => rfl, fun _ _ => rfl⟩ hloop
  exact key.2 F hF

/-- C14 applied to the triangulation of the unit square. -/
theorem region_classifier_closed_witness :
    ∃ fi, region_classifier (square_tds false) = some fi ∧
      (∀ a ∈ (square_tds false).all_faces, ∀ b, crosses (square_tds false) a b →
        (fi a).is_external = (fi b).is_external) ∧
      (∀ eit ∈ (square_tds false).finite_edges,
        (!((fi eit.1).is_external
            && (fi ((square_tds false).neighbor eit.1 eit.2)).is_external)
          && !(square_tds false).is_constrained eit.1 eit.2) = true →
        (fi eit.1).is_external = false ∧
          (fi ((square_tds false).neighbor eit.1 eit.2)).is_external = false) ∧
      (∀ (c : CDT) (h : halfedge_descriptor) (st : State) (s1 : Stitch),
        (square_tds false).finite_edges.foldlM (stitch_edge (square_tds false) c h)
            ⟨st, fi⟩ = .ok s1 →
        ∀ F, (fi F).is_external = true → s1.finfo F = fi F) :=
  region_classifier_closed (square_tds false) (by decide) (by decide) (by decide)
    (by decide)

/-! ## Vertex back-references -/

theorem boundary_walk_succ (vpmap : vertex_descriptor → Point_3) (g : PM)
    (start : halfedge_descriptor) (fuel : Nat) (w : Walk) :
    boundary_walk vpmap g start (fuel + 1) w =
      if (walk_body vpmap g w).h ≠ start then
        boundary_walk vpmap g start fuel (walk_body vpmap g w)
      else some (walk_body vpmap g w) := by
  rw [boundary_walk]
  rfl

/-- What one iteration does to the walk variables. -/
theorem walk_body_spec (vpmap : vertex_descriptor → Point_3) (g : PM) (w : Walk) :
    (walk_body vpmap g w).h = g.next w.h ∧
    (walk_body vpmap g w).cdt.points = (w.cdt.insert (vpmap (g.target w.h))).2.points ∧
    (walk_body vpmap g w).cdt.info =
      Function.update (w.cdt.insert (vpmap (g.target w.h))).2.info
        (w.cdt.insert (vpmap (g.target w.h))).1 (some w.h) ∧
    (walk_body vpmap g w).previous ≠ none ∧ (walk_body vpmap g w).first ≠ none := by
  unfold walk_body
  refine ⟨rfl, ?_, ?_, by simp, ?_⟩
  · cases w.previous with
    | none => rfl
    | some a => simp only; split <;> rfl
  · cases w.previous with
    | none => rfl
    | some a => simp only; split <;> rfl
  · simp only
    split
    · simp
    · assumption

theorem walk_body_normal (vpmap : vertex_descriptor → Point_3) (g : PM) (w : Walk) :
    (walk_body vpmap g w).cdt.normal = w.cdt.normal := by
  have hins : (w.cdt.insert (vpmap (g.target w.h))).2.normal = w.cdt.normal := by
    unfold CDT.insert
    split <;> rfl
  unfold walk_body
  cases w.previous with
  | none => exact hins
  | some a => simp only; split <;> exact hins

/-- What `cdt.insert` returns and does to the points, seen through the
projection. -/
theorem insert_spec (c : CDT) (p : Point_3)
    (hnd : (c.points.map (project c.normal)).Nodup) :
    ((c.insert p).2.points.map (project c.normal)).Nodup ∧
    (c.insert p).2.info = c.info ∧
    (∀ q, (c.insert p).2.points[(c.insert p).1]? = some q →
      project c.normal q = project c.normal p) ∧
    (∀ k ∈ c.points.map (project c.normal),
      k ∈ (c.insert p).2.points.map (project c.normal)) ∧
    project c.normal p ∈ (c.insert p).2.points.map (project c.normal) ∧
    (∀ v q, (c.insert p).2.points[v]? = some q → v ≠ (c.insert p).1 →
      c.points[v]? = some q ∧ project c.normal q ≠ project c.normal p) ∧
    (c.insert p).1 < (c.insert p).2.points.length ∧
    c.points.length ≤ (c.insert p).2.points.length ∧
    (project c.normal p ∉ c.points.map (project c.normal) →
      (c.insert p).2.points = c.points ++ [p]) := by
  by_cases hp : project c.normal p ∈ c.points.map (project c.normal)
  · have hlt : (c.points.map (project c.normal)).indexOf (project c.normal p) <
        (c.points.map (project c.normal)).length := List.indexOf_lt_length.mpr hp
    have hlt1 : (c.points.map (project c.normal)).indexOf (project c.normal p) <
        c.points.length := by rwa [List.length_map] at hlt
    have hins : c.insert p =
        ((c.points.map (project c.normal)).indexOf (project c.normal p), c) := by
      unfold CDT.insert; rw [if_pos hlt1]
    have hkey := List.getElem?_indexOf hp
    rw [hins]
    refine ⟨hnd, rfl, ?_, fun k hk => hk, hp, ?_, hlt1, le_refl _, fun h => absurd hp h⟩
    · intro q hq
      simp only at hq
      rw [List.getElem?_map, hq] at hkey
      simpa using hkey
    · intro v q hv hne
      refine ⟨hv, ?_⟩
      intro heq
      apply hne
      have hvk : (c.points.map (project c.normal))[v]? = some (project c.normal p) := by
        rw [List.getElem?_map, hv, ← heq]; rfl
      obtain ⟨hvlt, hvq⟩ := List.getElem?_eq_some.mp hvk
      have := List.indexOf_getElem hnd v hvlt
      rw [hvq] at this
      exact this.symm
  · rw [insert_new c p hp]
    refine ⟨?_, rfl, ?_, ?_, ?_, ?_, by simp, by simp, fun _ => rfl⟩
    · simp only [List.map_append, List.map_cons, List.map_nil]
      rw [List.nodup_append]
      refine ⟨hnd, List.nodup_singleton _, ?_⟩
      intro a ha hb
      rw [List.mem_singleton] at hb
      exact hp (hb ▸ ha)
    · intro q hq
      simp only [List.getElem?_concat_length, Option.some.injEq] at hq
      rw [hq]
    · intro k hk
      simp only [List.map_append, List.mem_append]
      exact Or.inl hk
    · simp
    · intro v q hv hne
      simp only at hv hne
      obtain ⟨hvlt, _⟩ := List.getElem?_eq_some.mp hv
      have hlt : v < c.points.length := by
        simp only [List.length_append, List.length_singleton] at hvlt
        omega
      rw [List.getElem?_append_left hlt] at hv
      refine ⟨hv, ?_⟩
      intro heq
      exact hp (heq ▸ List.mem_map_of_mem (project c.normal) (List.getElem?_mem hv))

/-- One iteration of the walk keeps the back-references right. -/
theorem walk_body_info (vpmap : vertex_descriptor → Point_3) (g : PM) (n : Vector_3)
    (w : Walk) (done : List halfedge_descriptor) (hinv : InfoInv vpmap g n done w.cdt) :
    InfoInv vpmap g n (done ++ [w.h]) (walk_body vpmap g w).cdt := by
  obtain ⟨_, hpts, hinfo, _, _⟩ := walk_body_spec vpmap g w
  have hn := hinv.normal_eq
  have hspec := insert_spec w.cdt (vpmap (g.target w.h)) (by rw [hn]; exact hinv.nodup)
  rw [hn] at hspec
  obtain ⟨i1, i2, i3, i4, i5, i6, i7, i8, i9⟩ := hspec
  refine ⟨?_, ?_, ?_, ?_, ?_, ?_⟩
  · rw [walk_body_normal]; exact hn
  · rw [hpts]; exact i1
  · intro h hh
    rw [hpts]
    rcases List.mem_append.mp hh with h1 | h1
    · exact i4 _ (hinv.inserted h h1)
    · rw [List.mem_singleton.mp h1]
      exact i5
  · intro v q hv
    rw [hpts] at hv
    rw [hinfo, i2]
    by_cases hk : v = (w.cdt.insert (vpmap (g.target w.h))).1
    · subst hk
      refine ⟨done, w.h, [], rfl, by simp, (i3 q hv).symm, by simp⟩
    · obtain ⟨hold, hne⟩ := i6 v q hv hk
      obtain ⟨pre, h, post, e1, e2, e3, e4⟩ := hinv.tagged v q hold
      refine ⟨pre, h, post ++ [w.h], by rw [e1]; simp, ?_, e3, ?_⟩
      · rw [Function.update_noteq hk]; exact e2
      · intro x hx
        rcases List.mem_append.mp hx with h1 | h1
        · exact e4 x h1
        · rw [List.mem_singleton.mp h1]; exact fun e => hne e.symm
  · intro v hv
    rw [hpts] at hv
    rw [hinfo, i2, Function.update_noteq (by omega)]
    exact hinv.untagged v (by omega)
  · intro hnd
    rw [List.map_append, List.nodup_append] at hnd
    obtain ⟨h1, _, h3⟩ := hnd
    have hold := hinv.order h1
    have hnew : project n (vpmap (g.target w.h)) ∉ w.cdt.points.map (project n) := by
      rw [hold, List.map_map]
      intro hin
      exact h3 hin (by simp)
    rw [hpts, i9 hnew, hold]
    simp

/-- The walk over the rest of the cycle returns, with the back-references
right for all the half-edges walked. -/
theorem boundary_walk_info (vpmap : vertex_descriptor → Point_3) (g : PM) (n : Vector_3)
    (start : halfedge_descriptor) :
    ∀ (fuel : Nat) (w : Walk) (hs done : List halfedge_descriptor),
      cycle_from g start fuel w.h = some hs → InfoInv vpmap g n done w.cdt →
      ∃ w1, boundary_walk vpmap g start fuel w = some w1 ∧
        InfoInv vpmap g n (done ++ hs) w1.cdt ∧ w1.previous ≠ none ∧
        w1.first ≠ none := by
  intro fuel
  induction fuel with
  | zero => intro w hs done hc; simp [cycle_from] at hc
  | succ fuel ih =>
    intro w hs done hc hinv
    obtain ⟨hh, _, _, hp, hf⟩ := walk_body_spec vpmap g w
    have hstep := walk_body_info vpmap g n w done hinv
    unfold cycle_from at hc
    rw [boundary_walk_succ, hh]
    by_cases hnext : g.next w.h = start
    · rw [if_pos hnext] at hc
      obtain rfl : [w.h] = hs := by simpa using hc
      rw [if_neg (not_not.mpr hnext)]
      exact ⟨_, rfl, hstep, hp, hf⟩
    · rw [if_neg hnext] at hc
      cases hrec : cycle_from g start fuel (g.next w.h) with
      | none => simp [hrec] at hc
      | some hs1 =>
        rw [hrec] at hc
        obtain rfl : w.h :: hs1 = hs := by simpa using hc
        rw [if_pos hnext]
        obtain ⟨w1, hrun, hres, hp1, hf1⟩ :=
          ih (walk_body vpmap g w) hs1 (done ++ [w.h]) (by rw [hh]; exact hrec) hstep
        refine ⟨w1, hrun, ?_, hp1, hf1⟩
        simpa using hres

/-- The planar triangulator returns on a closed boundary cycle, with the
back-references right for the whole cycle. -/
theorem planar_triangulator_inv (vpmap : vertex_descriptor → Point_3) (g : PM)
    (f : face_descriptor) (normal : Vector_3) (hs : List halfedge_descriptor)
    (hcyc : halfedges_around_face (g.halfedge f) g = some hs) :
    ∃ w, planar_triangulator vpmap g f normal = .ok w ∧
      InfoInv vpmap g normal hs w.cdt := by
  unfold halfedges_around_face at hcyc
  obtain ⟨w1, hrun, hinv, hp, hf⟩ := boundary_walk_info vpmap g normal (g.halfedge f)
    g.num_halfedges ⟨⟨normal, [], fun _ => none, []⟩, g.halfedge f, none, none⟩ hs []
    hcyc
    ⟨rfl, List.nodup_nil, by simp, by simp, by simp, by simp⟩
  unfold planar_triangulator
  rw [hrun]
  cases hpv : w1.previous with
  | none => exact absurd hpv hp
  | some a =>
    cases hfv : w1.first with
    | none => exact absurd hfv hf
    | some b =>
      refine ⟨{ w1 with cdt := w1.cdt.insert_constraint a b }, by simp [hpv, hfv], ?_⟩
      simp only [List.nil_append] at hinv
      exact ⟨hinv.normal_eq, hinv.nodup, hinv.inserted, hinv.tagged, hinv.untagged,
        hinv.order⟩

/-- With pairwise distinct projections vertex `i` has the point of `target(hi)`
and is tagged with `hi`. -/
theorem info_of_distinct (vpmap : vertex_descriptor → Point_3) (g : PM) (n : Vector_3)
    (hs : List halfedge_descriptor) (c : CDT) (hinv : InfoInv vpmap g n hs c)
    (hnd : (hs.map fun h => project n (vpmap (g.target h))).Nodup) :
    c.points = hs.map (fun h => vpmap (g.target h)) ∧ ∀ i, c.info i = hs[i]? := by
  have hpts := hinv.order hnd
  have hlen : c.points.length = hs.length := by rw [hpts, List.length_map]
  refine ⟨hpts, fun i => ?_⟩
  cases hget : hs[i]? with
  | none =>
    have hi : hs.length ≤ i := List.getElem?_eq_none_iff.mp hget
    exact hinv.untagged i (by omega)
  | some x =>
    have hp : c.points[i]? = some (vpmap (g.target x)) := by
      rw [hpts, List.getElem?_map, hget]; rfl
    obtain ⟨pre, h, post, e1, e2, e3, _⟩ := hinv.tagged i _ hp
    have hmem : h ∈ hs := by rw [e1]; simp
    have hx : x ∈ hs := List.getElem?_mem hget
    rw [e2, List.inj_on_of_nodup_map hnd hmem hx e3]

/-- C15, the claim as stated fails: on the face of `fin_hexagon` the six
positions are pairwise distinct, but the walk gets 4 vertices for the 6
boundary half-edges, so `info` is no bijection (half-edges `2` and `8` are the
tag of no vertex); vertex `1` keeps the point `(1,0,0)` of the first position
inserted for it and is tagged with half-edge `4`, whose target has the position
`(1,0,1)`. -/
theorem planar_triangulator_info_fin_hexagon :
    halfedges_around_face (fin_hexagon.halfedge 0) fin_hexagon =
      some [0, 2, 4, 6, 8, 10] ∧
    ([0, 2, 4, 6, 8, 10].map fun h => fin_hexagon.point (fin_hexagon.target h)).Nodup ∧
    (compute_face_normal 0 fin_hexagon).toOption = some ⟨0, 0, 2⟩ ∧
    (planar_triangulator fin_hexagon.point fin_hexagon 0 ⟨0, 0, 2⟩).toOption.map
        (fun w => (w.cdt.points, (List.range 6).map w.cdt.info)) =
      some ([⟨0, 0, 0⟩, ⟨1, 0, 0⟩, ⟨1, 1, 0⟩, ⟨0, 1, 0⟩],
        [some 0, some 4, some 6, some 10, none, none]) ∧
    fin_hexagon.point (fin_hexagon.target 4) = ⟨1, 0, 1⟩ := by
  refine ⟨by decide, by decide, by decide, by decide, by decide⟩

/-- C15 (amended): after the boundary walk of a closed cycle `h0, ..., h(n-1)`
the planar triangulator returns, the position of every `target(hi)` projects
onto the point of a triangulation vertex (the vertex its insertion returned),
and every vertex `v` is tagged with the half-edge `hi` of the largest index
whose target projects onto the point of `v`: the cycle splits as
`pre ++ hi :: post` with no half-edge of `post` projecting there.  So the
position of `target(info(v))` has the projection of the point of `v`; and when
the projections of all positions are pairwise distinct the points of the
vertices are the positions in the order of the cycle and `info` sends vertex
`i` to `hi`, handles from `n` on carrying no tag. -/
theorem planar_triangulator_info (vpmap : vertex_descriptor → Point_3) (g : PM)
    (f : face_descriptor) (normal : Vector_3) (hs : List halfedge_descriptor)
    (hcyc : halfedges_around_face (g.halfedge f) g = some hs) :
    ∃ w, planar_triangulator vpmap g f normal = .ok w ∧
      (∀ h ∈ hs, project normal (vpmap (g.target h)) ∈
        w.cdt.points.map (project normal)) ∧
      (∀ v p, w.cdt.points[v]? = some p →
        ∃ pre h post, hs = pre ++ h :: post ∧ w.cdt.info v = some h ∧
          project normal (vpmap (g.target h)) = project normal p ∧
          ∀ x ∈ post, project normal (vpmap (g.target x)) ≠ project normal p) ∧
      ((hs.map fun h => project normal (vpmap (g.target h))).Nodup →
        w.cdt.points = hs.map (fun h => vpmap (g.target h)) ∧
        ∀ i, w.cdt.info i = hs[i]?) := by
  obtain ⟨w, hok, hinv⟩ := planar_triangulator_inv vpmap g f normal hs hcyc
  exact ⟨w, hok, hinv.inserted, hinv.tagged,
    fun hnd => info_of_distinct vpmap g normal hs w.cdt hinv hnd⟩

/-- C15 applied to the face of the fin hexagon, where two pairs of positions
project alike. -/
theorem planar_triangulator_info_witness :
    ∃ w, planar_triangulator fin_hexagon.point fin_hexagon 0 ⟨0, 0, 2⟩ = .ok w ∧
      (∀ h ∈ [0, 2, 4, 6, 8, 10],
        project ⟨0, 0, 2⟩ (fin_hexagon.point (fin_hexagon.target h)) ∈
          w.cdt.points.map (project ⟨0, 0, 2⟩)) ∧
      (∀ v p, w.cdt.points[v]? = some p →
        ∃ pre h post, [0, 2, 4, 6, 8, 10] = pre ++ h :: post ∧ w.cdt.info v = some h ∧
          project ⟨0, 0, 2⟩ (fin_hexagon.point (fin_hexagon.target h)) =
            project ⟨0, 0, 2⟩ p ∧
          ∀ x ∈ post, project ⟨0, 0, 2⟩ (fin_hexagon.point (fin_hexagon.target x)) ≠
            project ⟨0, 0, 2⟩ p) ∧
      (([0, 2, 4, 6, 8, 10].map fun h =>
          project ⟨0, 0, 2⟩ (fin_hexagon.point (fin_hexagon.target h))).Nodup →
        w.cdt.points =
          [0, 2, 4, 6, 8, 10].map (fun h => fin_hexagon.point (fin_hexagon.target h)) ∧
        ∀ i, w.cdt.info i = [0, 2, 4, 6, 8, 10][i]?) :=
  planar_triangulator_info fin_hexagon.point fin_hexagon 0 ⟨0, 0, 2⟩ [0, 2, 4, 6, 8, 10]
    (by decide)

/-! ## Slots of the interior faces -/

theorem internal_edge_ok (t : Tds) (c : CDT) (h : halfedge_descriptor) (s : Stitch)
    (eit : Nat × Fin 3) (x y : halfedge_descriptor)
    (hx : c.info (t.vertex eit.1 (cw eit.2)) = some x)
    (hy : c.info (t.vertex eit.1 (ccw eit.2)) = some y) :
    ∃ s0, internal_edge t c h s eit = .ok s0 := by
  unfold internal_edge
  simp only [hx, hy]
  split
  · exact ⟨_, rfl⟩
  · exact ⟨_, rfl⟩

/-- One step of the loop over the finite edges completes when the two vertices
of the edge carry a back-reference; it never empties a slot, and it fills the
slot of the edge in each incident face that is not exterior. -/
theorem stitch_edge_complete (t : Tds) (c : CDT) (h : halfedge_descriptor) (s : Stitch)
    (eit : Nat × Fin 3) (x y : halfedge_descriptor)
    (hx : c.info (t.vertex eit.1 (cw eit.2)) = some x)
    (hy : c.info (t.vertex eit.1 (ccw eit.2)) = some y) :
    ∃ s1, stitch_edge t c h s eit = .ok s1 ∧
      (∀ F i, ((s.finfo F).e i).isSome = true → ((s1.finfo F).e i).isSome = true) ∧
      ((s.finfo eit.1).is_external = false → ((s1.finfo eit.1).e eit.2).isSome = true) ∧
      ((s.finfo (t.neighbor eit.1 eit.2)).is_external = false →
        ((s1.finfo (t.neighbor eit.1 eit.2)).e
          (t.index (t.neighbor eit.1 eit.2) eit.1)).isSome = true) := by
  obtain ⟨s0, h0⟩ := internal_edge_ok t c h s eit x y hx hy
  have hfi := internal_edge_finfo t c h s s0 eit h0
  refine ⟨constrained_edge t c s0 eit, by unfold stitch_edge; rw [h0]; rfl, ?_, ?_, ?_⟩
  all_goals
    cases hc : t.is_constrained eit.1 eit.2 <;>
    cases h1 : (s.finfo eit.1).is_external <;>
    cases h2 : (s.finfo (t.neighbor eit.1 eit.2)).is_external <;>
    rw [hc, h1, h2] at hfi <;>
    simp at hfi <;>
    simp [constrained_edge, hfi, hc, h1, h2, set_e_slot, set_e_external, hx, hy] <;>
    intros <;> split_ifs <;> first | rfl | assumption

/-- The loop over the finite edges completes when the vertices of the edges
carry a back-reference; it keeps the flags, never empties a slot, and for every
edge it has filled the slot in each incident face that is not exterior. -/
theorem edge_loop_complete (t : Tds) (c : CDT) (h : halfedge_descriptor) :
    ∀ (l : List (Nat × Fin 3)) (s : Stitch),
      (∀ eit ∈ l, (c.info (t.vertex eit.1 (cw eit.2))).isSome = true ∧
        (c.info (t.vertex eit.1 (ccw eit.2))).isSome = true) →
      ∃ s1, l.foldlM (stitch_edge t c h) s = .ok s1 ∧
        (∀ G, (s1.finfo G).is_external = (s.finfo G).is_external) ∧
        (∀ F i, ((s.finfo F).e i).isSome = true → ((s1.finfo F).e i).isSome = true) ∧
        (∀ eit ∈ l,
          ((s.finfo eit.1).is_external = false →
            ((s1.finfo eit.1).e eit.2).isSome = true) ∧
          ((s.finfo (t.neighbor eit.1 eit.2)).is_external = false →
            ((s1.finfo (t.neighbor eit.1 eit.2)).e
              (t.index (t.neighbor eit.1 eit.2) eit.1)).isSome = true)) := by
  intro l
  induction l with
  | nil =>
    intro s _
    exact ⟨s, rfl, fun _ => rfl, fun _ _ hF => hF, by simp⟩
  | cons a l ih =>
    intro s hinfo
    obtain ⟨hxa, hya⟩ := hinfo a (List.mem_cons_self _ _)
    obtain ⟨x, hx⟩ := Option.isSome_iff_exists.mp hxa
    obtain ⟨y, hy⟩ := Option.isSome_iff_exists.mp hya
    obtain ⟨s0, hstep, hmono0, hw1, hw2⟩ := stitch_edge_complete t c h s a x y hx hy
    have hflag0 := stitch_edge_flags t c h s s0 a hstep
    obtain ⟨s1, hrun, hflag1, hmono1, hwr⟩ :=
      ih s0 (fun eit he => hinfo eit (List.mem_cons_of_mem _ he))
    refine ⟨s1, ?_, ?_, ?_, ?_⟩
    · rw [List.foldlM_cons, hstep]; exact hrun
    · intro G; rw [hflag1, hflag0]
    · intro F i hF; exact hmono1 F i (hmono0 F i hF)
    · intro eit he
      rcases List.mem_cons.mp he with rfl | he1
      · exact ⟨fun hext => hmono1 _ _ (hw1 hext), fun hext => hmono1 _ _ (hw2 hext)⟩
      · obtain ⟨k1, k2⟩ := hwr eit he1
        exact ⟨fun hext => k1 (by rw [hflag0]; exact hext),
          fun hext => k2 (by rw [hflag0]; exact hext)⟩

/-- The body of the loop over the finite faces does not touch the face
records. -/
theorem stitch_face_finfo (s s1 : Stitch) (fit : Nat) (hok : stitch_face s fit = .ok s1) :
    s1.finfo = s.finfo := by
  unfold stitch_face at hok
  split at hok
  · split at hok
    · simp only at hok
      split at hok
      · cases hok
      · simp only [Except.ok.injEq] at hok
        rw [← hok]
    · cases hok
  · simp only [Except.ok.injEq] at hok
    rw [hok]

/-- No assertion fails for a face whose three slots are assigned. -/
theorem stitch_face_asserts (s : Stitch) (fit : Nat)
    (hslots : (s.finfo fit).is_external = false → ∀ i, ((s.finfo fit).e i).isSome = true)
    (st : State) : stitch_face s fit ≠ .error (.FatalInvariantViolation, st) := by
  unfold stitch_face
  cases hext : (s.finfo fit).is_external with
  | true => simp
  | false =>
    obtain ⟨h0, e0⟩ := Option.isSome_iff_exists.mp (hslots hext 0)
    obtain ⟨h1, e1⟩ := Option.isSome_iff_exists.mp (hslots hext 1)
    obtain ⟨h2, e2⟩ := Option.isSome_iff_exists.mp (hslots hext 2)
    simp only [e0, e1, e2, Bool.not_false, if_true]
    split <;> simp

/-- No assertion fails in the loop over the finite faces when the slots of its
interior faces are assigned. -/
theorem face_loop_asserts :
    ∀ (l : List Nat) (s : Stitch),
      (∀ F ∈ l, (s.finfo F).is_external = false → ∀ i, ((s.finfo F).e i).isSome = true) →
      ∀ st, l.foldlM stitch_face s ≠ .error (.FatalInvariantViolation, st) := by
  intro l
  induction l with
  | nil => intro s _ st hrun; cases hrun
  | cons a l ih =>
    intro s hslots st
    rw [List.foldlM_cons]
    cases hstep : stitch_face s a with
    | error err =>
      intro hrun
      have : err = (Error.FatalInvariantViolation, st) := by
        simpa [bind, Except.bind] using hrun
      rw [this] at hstep
      exact stitch_face_asserts s a (hslots a (List.mem_cons_self _ _)) st hstep
    | ok s0 =>
      have hfi := stitch_face_finfo s s0 a hstep
      apply ih s0
      intro F hF
      rw [hfi]
      exact hslots F (List.mem_cons_of_mem _ hF)

/-- C11: for a face whose normal can be estimated and a well-formed
triangulation of its boundary, the face is prepared (normal, boundary walk,
flags of the region classifier), the loop over the finite edges completes, and
after it every finite face not marked exterior has its three slots `e[0]`,
`e[1]`, `e[2]` assigned a half-edge; so the loop over the finite faces never
fails one of its three assertions. -/
theorem stitch_edges_slots_complete (engine : Engine)
    (vpmap : vertex_descriptor → Point_3) (f : face_descriptor) (s : State)
    (normal : Vector_3) (hnormal : compute_face_normal f s.pmesh = .ok normal)
    (hwf : ∀ w, planar_triangulator vpmap s.pmesh f normal = .ok w →
      (engine w.cdt.normal w.cdt.points w.cdt.constraints).well_formed
        w.cdt.points.length) :
    ∃ p s1, prepare engine vpmap f s = .ok p ∧
      stitch_edges p.t p.w.cdt p.w.h f p.fi s = .ok s1 ∧
      (∀ F ∈ p.t.finite_faces, (s1.finfo F).is_external = false →
        ∀ i, ((s1.finfo F).e i).isSome = true) ∧
      ∀ st, stitch_faces p.t s1 ≠ .error (.FatalInvariantViolation, st) := by
  -- the boundary cycle closes, since the normal was estimated from it
  have hcyc : ∃ hs, halfedges_around_face (s.pmesh.halfedge f) s.pmesh = some hs := by
    unfold compute_face_normal face_points at hnormal
    cases hc : halfedges_around_face (s.pmesh.halfedge f) s.pmesh with
    | none => rw [hc] at hnormal; cases hnormal
    | some hs => exact ⟨hs, rfl⟩
  obtain ⟨hs, hcyc⟩ := hcyc
  obtain ⟨w, hok, hinv⟩ := planar_triangulator_inv vpmap s.pmesh f normal hs hcyc
  obtain ⟨hseed, hclosed, hmirror, henum, hverts⟩ := hwf w hok
  obtain ⟨fi, hrun, _⟩ := region_classifier_inv
    (engine w.cdt.normal w.cdt.points w.cdt.constraints) hseed hclosed
  have hprep : prepare engine vpmap f s =
      .ok ⟨engine w.cdt.normal w.cdt.points w.cdt.constraints, w, fi⟩ := by
    unfold prepare
    rw [hnormal]
    simp only [hok, hrun]
  have hinfo : ∀ v, v < w.cdt.points.length → (w.cdt.info v).isSome = true := by
    intro v hv
    obtain ⟨_, h, _, _, e2, _, _⟩ :=
      hinv.tagged v _ (List.getElem?_eq_some.mpr ⟨hv, rfl⟩)
    rw [e2]; rfl
  obtain ⟨s1, hloop, hflag, _, hwr⟩ := edge_loop_complete
    (engine w.cdt.normal w.cdt.points w.cdt.constraints) w.cdt w.h
    (engine w.cdt.normal w.cdt.points w.cdt.constraints).finite_edges
    ⟨⟨{ s.pmesh with
          face := fun x => if x ∈ hs then none else s.pmesh.face x
          faces := match s.pmesh.face (s.pmesh.halfedge f) with
            | some fd => s.pmesh.faces.erase fd
            | none => s.pmesh.faces },
        s.trace ++ [Call.make_hole (s.pmesh.halfedge f)]⟩, fi⟩
    (fun eit he => ⟨hinfo _ (hverts eit he).1, hinfo _ (hverts eit he).2⟩)
  have hslots : ∀ F ∈ (engine w.cdt.normal w.cdt.points w.cdt.constraints).finite_faces,
      (s1.finfo F).is_external = false → ∀ i, ((s1.finfo F).e i).isSome = true := by
    intro F hF hext i
    rw [hflag] at hext
    obtain ⟨m1, m2⟩ := hmirror F hF i
    rcases henum F hF i with he | he
    · exact (hwr _ he).1 hext
    · have := (hwr _ he).2 (by simp only; rw [m1]; exact hext)
      simp only [m1, m2] at this
      exact this
  refine ⟨_, s1, hprep, ?_, hslots, ?_⟩
  · unfold stitch_edges make_hole
    simp only [hcyc, Option.map_some']
    exact hloop
  · intro st
    exact face_loop_asserts _ s1 hslots st

/-- The triangulation of the unit square is well formed for its 4 vertices. -/
theorem square_tds_well_formed (side : Bool) : (square_tds side).well_formed 4 := by
  unfold Tds.well_formed
  cases side <;> decide

/-- C11 applied to the face of the unit square and its triangulation. -/
theorem stitch_edges_slots_complete_witness :
    ∃ p s1, prepare (square_engine false) unit_square.point 0 ⟨unit_square, []⟩ = .ok p ∧
      stitch_edges p.t p.w.cdt p.w.h 0 p.fi ⟨unit_square, []⟩ = .ok s1 ∧
      (∀ F ∈ p.t.finite_faces, (s1.finfo F).is_external = false →
        ∀ i, ((s1.finfo F).e i).isSome = true) ∧
      ∀ st, stitch_faces p.t s1 ≠ .error (.FatalInvariantViolation, st) :=
  stitch_edges_slots_complete (square_engine false) unit_square.point 0
    ⟨unit_square, []⟩ ⟨0, 0, 2⟩ rfl
    (by
      intro w hw
      have h1 : (planar_triangulator unit_square.point unit_square 0 ⟨0, 0, 2⟩).toOption.map
          (fun w => (w.cdt.points, w.cdt.constraints)) =
          some ([⟨0, 0, 0⟩, ⟨1, 0, 0⟩, ⟨1, 1, 0⟩, ⟨0, 1, 0⟩],
            [(0, 1), (1, 2), (2, 3), (3, 0)]) := by decide
      rw [hw] at h1
      simp only [Except.toOption, Option.map_some', Option.some.injEq, Prod.mk.injEq] at h1
      have h2 : square_engine false w.cdt.normal w.cdt.points w.cdt.constraints =
          square_tds false := by
        unfold square_engine
        rw [h1.1, h1.2]
        exact if_pos ⟨rfl, rfl⟩
      rw [h2, h1.1]
      exact square_tds_well_formed false)

/-! ## Slots of the constrained edges -/

/-- The half-edge at place `k` of a boundary cycle is the `k`-th iterate of
`next`. -/
theorem cycle_getElem (g : PM) (start : halfedge_descriptor) (fuel : Nat)
    (h : halfedge_descriptor) (hs : List halfedge_descriptor)
    (hc : cycle_from g start fuel h = some hs) (k : Nat) (hk : k < hs.length) :
    hs[k]? = some (g.next^[k] h) := by
  obtain ⟨e1, _, _, _⟩ := cycle_from_spec g start fuel h hs hc
  have e2 : ((List.range hs.length).map fun k => g.next^[k] h)[k]? =
      some (g.next^[k] h) := by
    rw [List.getElem?_map, List.getElem?_range hk]; rfl
  rw [← e1] at e2
  exact e2

/-- In a boundary cycle of length `n` the half-edge at place `(k + 1) % n` is
the `next` of the half-edge at place `k`. -/
theorem cycle_succ (g : PM) (start : halfedge_descriptor) (hs : List halfedge_descriptor)
    (hc : halfedges_around_face start g = some hs) (k : Nat) (hk : k < hs.length)
    (x : halfedge_descriptor) (hx : hs[k]? = some x) :
    hs[(k + 1) % hs.length]? = some (g.next x) := by
  unfold halfedges_around_face at hc
  obtain ⟨_, hpos, hret, _⟩ := cycle_from_spec g start _ start hs hc
  have hxk := cycle_getElem g start _ start hs hc k hk
  rw [hx] at hxk
  simp only [Option.some.injEq] at hxk
  rw [hxk, ← Function.iterate_succ_apply' g.next]
  rcases Nat.lt_or_ge (k + 1) hs.length with h1 | h1
  · rw [Nat.mod_eq_of_lt h1]
    exact cycle_getElem g start _ start hs hc (k + 1) h1
  · have hkn : k + 1 = hs.length := by omega
    have hsucc : g.next^[k.succ] start = start := by
      rw [Nat.succ_eq_add_one, hkn]; exact hret
    rw [hkn, Nat.mod_self, hsucc]
    exact cycle_getElem g start _ start hs hc 0 hpos

/-- The face records after the loop body for a constrained edge: the mesh and
the record of calls are untouched, the slot of `fh` receives the tag of `va`
when `fh` is interior and is not its own neighbor, and the slot of
`opposite_fh` receives the tag of `vb` when `opposite_fh` is interior. -/
theorem stitch_edge_constrained (t : Tds) (c : CDT) (h : halfedge_descriptor)
    (s : Stitch) (eit : Nat × Fin 3) (hc : t.is_constrained eit.1 eit.2 = true) :
    ∃ s1, stitch_edge t c h s eit = .ok s1 ∧ s1.st = s.st ∧
      ((s.finfo eit.1).is_external = false → t.neighbor eit.1 eit.2 ≠ eit.1 →
        (s1.finfo eit.1).e eit.2 = c.info (t.vertex eit.1 (cw eit.2))) ∧
      ((s.finfo (t.neighbor eit.1 eit.2)).is_external = false →
        (s1.finfo (t.neighbor eit.1 eit.2)).e (t.index (t.neighbor eit.1 eit.2) eit.1) =
          c.info (t.vertex eit.1 (ccw eit.2))) := by
  refine ⟨constrained_edge t c s eit, ?_, ?_, ?_, ?_⟩
  · unfold stitch_edge
    rw [internal_edge_constrained t c h s eit hc]
    rfl
  · unfold constrained_edge
    simp only [hc, if_true]
  · intro h1 hne
    unfold constrained_edge
    simp only [hc, h1, if_true, Bool.not_false, set_e_external]
    split
    · rw [set_e_slot, if_neg (fun hh => hne hh.1.symm), set_e_slot, if_pos ⟨rfl, rfl⟩]
    · rw [set_e_slot, if_pos ⟨rfl, rfl⟩]
  · intro h2
    unfold constrained_edge
    simp only [hc, if_true]
    cases h1 : (s.finfo eit.1).is_external <;>
      simp [set_e_external, h2, set_e_slot]

/-- When vertex `a` follows vertex `b` along the boundary cycle, the tag of `a`
is the boundary half-edge from the mesh vertex of `b` to the mesh vertex of
`a`. -/
theorem boundary_pair (vpmap : vertex_descriptor → Point_3) (g : PM)
    (start : halfedge_descriptor) (hs : List halfedge_descriptor) (c : CDT)
    (hprev : ∀ h, g.prev (g.next h) = h)
    (hcyc : halfedges_around_face start g = some hs)
    (hpts : c.points = hs.map fun h => vpmap (g.target h))
    (hinfo : ∀ i, c.info i = hs[i]?)
    (a b : Nat) (hb : b < hs.length) (hab : a = (b + 1) % hs.length) :
    ∃ sl, c.info a = some sl ∧ hs[a]? = some sl ∧ hs[b]? = some (g.prev sl) ∧
      c.points[a]? = some (vpmap (g.target sl)) ∧
      c.points[b]? = some (vpmap (g.target (g.prev sl))) := by
  cases hgb : hs[b]? with
  | none =>
    have := List.getElem?_eq_none_iff.mp hgb
    omega
  | some xb =>
    have hga := cycle_succ g start hs hcyc b hb xb hgb
    rw [← hab] at hga
    refine ⟨g.next xb, by rw [hinfo, hga], hga, by rw [hprev], ?_, ?_⟩
    · rw [hpts, List.getElem?_map, hga]; rfl
    · rw [hpts, List.getElem?_map, hgb, hprev]; rfl

/-- C12 (amended): for a face of a mesh in which `prev` undoes `next`, with a
closed boundary cycle `h0, ..., h(n-1)` whose target positions have pairwise
distinct projections along the normal, the planar triangulator returns, and for
every constrained edge `(fh, index)` whose endpoints `va`, `vb` are inserted
vertices the loop body allocates no mesh edge and leaves the mesh untouched.
When `fh` is interior, is not its own neighbor across the edge, and sees the
edge in the direction of the boundary cycle (`va` follows `vb`:
`va = (vb + 1) mod n`), the half-edge `s` written into its slot is the boundary
half-edge tagged on `va`, whose target, in the mesh as the walk read it, has
the point of `va` and whose `prev` is the half-edge tagged on `vb`, with a
target at the point of `vb`; symmetrically for `opposite_fh` when it is
interior and `vb` follows `va`. -/
theorem constrained_edge_slot (vpmap : vertex_descriptor → Point_3) (g : PM)
    (f : face_descriptor) (normal : Vector_3) (hs : List halfedge_descriptor)
    (hprev : ∀ h, g.prev (g.next h) = h)
    (hcyc : halfedges_around_face (g.halfedge f) g = some hs)
    (hnd : (hs.map fun h => project normal (vpmap (g.target h))).Nodup) :
    ∃ w, planar_triangulator vpmap g f normal = .ok w ∧
      ∀ (t : Tds) (h : halfedge_descriptor) (s : Stitch) (eit : Nat × Fin 3),
        t.is_constrained eit.1 eit.2 = true →
        t.vertex eit.1 (cw eit.2) < hs.length →
        t.vertex eit.1 (ccw eit.2) < hs.length →
        ∃ s1, stitch_edge t w.cdt h s eit = .ok s1 ∧ s1.st = s.st ∧
          ((s.finfo eit.1).is_external = false → t.neighbor eit.1 eit.2 ≠ eit.1 →
            t.vertex eit.1 (cw eit.2) = (t.vertex eit.1 (ccw eit.2) + 1) % hs.length →
            ∃ sl, (s1.finfo eit.1).e eit.2 = some sl ∧
              hs[t.vertex eit.1 (cw eit.2)]? = some sl ∧
              hs[t.vertex eit.1 (ccw eit.2)]? = some (g.prev sl) ∧
              w.cdt.points[t.vertex eit.1 (cw eit.2)]? = some (vpmap (g.target sl)) ∧
              w.cdt.points[t.vertex eit.1 (ccw eit.2)]? =
                some (vpmap (g.target (g.prev sl)))) ∧
          ((s.finfo (t.neighbor eit.1 eit.2)).is_external = false →
            t.vertex eit.1 (ccw eit.2) = (t.vertex eit.1 (cw eit.2) + 1) % hs.length →
            ∃ sl, (s1.finfo (t.neighbor eit.1 eit.2)).e
                (t.index (t.neighbor eit.1 eit.2) eit.1) = some sl ∧
              hs[t.vertex eit.1 (ccw eit.2)]? = some sl ∧
              hs[t.vertex eit.1 (cw eit.2)]? = some (g.prev sl) ∧
              w.cdt.points[t.vertex eit.1 (ccw eit.2)]? = some (vpmap (g.target sl)) ∧
              w.cdt.points[t.vertex eit.1 (cw eit.2)]? =
                some (vpmap (g.target (g.prev sl)))) := by
  obtain ⟨w, hok, hinv⟩ := planar_triangulator_inv vpmap g f normal hs hcyc
  obtain ⟨hpts, hinfo⟩ := info_of_distinct vpmap g normal hs w.cdt hinv hnd
  refine ⟨w, hok, ?_⟩
  intro t h s eit hc hva hvb
  obtain ⟨s1, hstep, hst, hA, hB⟩ := stitch_edge_constrained t w.cdt h s eit hc
  refine ⟨s1, hstep, hst, ?_, ?_⟩
  · intro hint hself hdir
    obtain ⟨sl, e1, e2, e3, e4, e5⟩ := boundary_pair vpmap g (g.halfedge f) hs w.cdt
      hprev hcyc hpts hinfo _ _ hvb hdir
    exact ⟨sl, by rw [hA hint hself, e1], e2, e3, e4, e5⟩
  · intro hint hdir
    obtain ⟨sl, e1, e2, e3, e4, e5⟩ := boundary_pair vpmap g (g.halfedge f) hs w.cdt
      hprev hcyc hpts hinfo _ _ hva hdir
    exact ⟨sl, by rw [hB hint, e1], e2, e3, e4, e5⟩

/-- C12 applied to the unit square and the constrained edge `(face 0, index 0)`
of its triangulation, from vertex `1` to vertex `2`: the slot receives
half-edge `4`, whose target is vertex `2` and whose `prev` is half-edge `2`. -/
theorem constrained_edge_slot_witness :
    ∃ w s1 sl, planar_triangulator unit_square.point unit_square 0 ⟨0, 0, 2⟩ = .ok w ∧
      stitch_edge (square_tds false) w.cdt 0 ⟨⟨unit_square, []⟩, square_flags⟩ (0, 0) =
        .ok s1 ∧
      s1.st = (⟨⟨unit_square, []⟩, square_flags⟩ : Stitch).st ∧
      (s1.finfo 0).e 0 = some sl ∧
      [0, 2, 4, 6][(square_tds false).vertex 0 (cw 0)]? = some sl ∧
      [0, 2, 4, 6][(square_tds false).vertex 0 (ccw 0)]? = some (unit_square.prev sl) := by
  obtain ⟨w, hw, H⟩ := constrained_edge_slot unit_square.point unit_square 0 ⟨0, 0, 2⟩
    [0, 2, 4, 6] unit_square_prev_next (by decide) (by decide)
  obtain ⟨s1, h1, h2, hA, _⟩ := H (square_tds false) 0 ⟨⟨unit_square, []⟩, square_flags⟩
    (0, 0) (by decide) (by decide) (by decide)
  obtain ⟨sl, e1, e2, e3, _, _⟩ := hA (by decide) (by decide) (by decide)
  exact ⟨w, s1, sl, hw, h1, h2, e1, e2, e3⟩

/-- C12, the claim as stated fails in two ways.  When the boundary cycle runs
clockwise in the projection plane: with the positions of `clockwise_point`
(pairwise distinct) the interior face `0 = (0, 3, 2)` has the constrained edge
`(face 0, index 0)` with `va = 2` and `vb = 3`; no mesh edge is allocated for it
and its slot receives half-edge `4`, the tag of `va`, but the target of
`prev(4)` is mesh vertex `1`, not mesh vertex `3` of `vb`.  When two distinct
positions project alike: on `fin_hexagon`, triangulated as the square, the
interior face `0 = (0, 1, 2)` has the constrained edge `(face 0, index 2)` with
`va = 1` and `vb = 0`, in the direction of the cycle; its slot receives
half-edge `4`, the last tag of `va`, and the target of `prev(4)` is mesh vertex
`1`, not mesh vertex `0` of `vb`. -/
theorem constrained_edge_slot_counterexample :
    facets unit_square = [0] ∧ (0, 0) ∈ clockwise_tds.finite_edges ∧
    ([0, 2, 4, 6].map fun h => clockwise_point (unit_square.target h)).Nodup ∧
    halfedges_around_face (unit_square.halfedge 0) unit_square = some [0, 2, 4, 6] ∧
    clockwise_tds.is_constrained 0 0 = true ∧
    clockwise_tds.vertex 0 (cw 0) = 2 ∧ clockwise_tds.vertex 0 (ccw 0) = 3 ∧
    (process_edges clockwise_engine clockwise_point 0 ⟨unit_square, []⟩).toOption.map
        (fun s => ((s.finfo 0).is_external, (s.finfo 0).e 0)) = some (false, some 4) ∧
    (planar_triangulator clockwise_point unit_square 0 ⟨0, 0, 2⟩).toOption.map
        (fun w => [2, 3].map fun v => (w.cdt.info v).map unit_square.target) =
      some [some 2, some 3] ∧
    unit_square.target 4 = 2 ∧ unit_square.target (unit_square.prev 4) = 1 ∧
    facets fin_hexagon = [0] ∧ (0, 2) ∈ (square_tds false).finite_edges ∧
    ([0, 2, 4, 6, 8, 10].map fun h => fin_hexagon.point (fin_hexagon.target h)).Nodup ∧
    halfedges_around_face (fin_hexagon.halfedge 0) fin_hexagon =
      some [0, 2, 4, 6, 8, 10] ∧
    (square_tds false).is_constrained 0 2 = true ∧
    (square_tds false).vertex 0 (cw 2) = 1 ∧ (square_tds false).vertex 0 (ccw 2) = 0 ∧
    (process_edges (square_engine false) fin_hexagon.point 0 ⟨fin_hexagon, []⟩).toOption.map
        (fun s => ((s.finfo 0).is_external, (s.finfo 0).e 2)) = some (false, some 4) ∧
    (planar_triangulator fin_hexagon.point fin_hexagon 0 ⟨0, 0, 2⟩).toOption.map
        (fun w => (w.cdt.info 0).map fin_hexagon.target) = some (some 0) ∧
    fin_hexagon.target (fin_hexagon.prev 4) = 1 := by
  refine ⟨by decide, by decide, by decide, by decide, by decide, by decide, by decide,
    by decide!, by decide, by decide, by decide, by decide, by decide, by decide,
    by decide, by decide, by decide, by decide, by decide!, by decide, by decide⟩

end PMP
